import Mathlib

/-! # TLTV codec of `src/tltv.cpp`

A shallow embedding of the Tag-Length-Type-Value encoder and decoder that
`main` of `src/tltv.cpp` is made of, followed by the properties proved about it.

Conventions of the embedding:

* `std::vector<uint8_t>` and the bytes of `std::string` are `List UInt8`;
* `uint16_t`, `uint32_t`, `uint64_t` and `size_t` values are `Nat`; the one
  narrowing conversion of the encoder, `(uint32_t)value.size()`, is an explicit
  `% 2 ^ 32`; `int64_t` values are `Int`, the conversion to `uint64_t` is
  `% 2 ^ 64` and the conversion back is the two's-complement reading;
* `size_t` cursor arithmetic is plain `Nat` arithmetic: a cursor never exceeds
  `buf.size()`, a `std::vector<uint8_t>` holds fewer than `2 ^ 63` bytes and a
  declared length is below `2 ^ 32`, so no 64-bit sum of the loops wraps;
* `b[i]` is `b.getD i 0`; the loops guard every read, so the default is never the
  value of a read the program performs;
* `printf` inside the parse loops is recorded, call by call, in the field
  `printed` of the decoder state; the hex dump and the final report (which only
  read the state) are not modelled;
* the two `while` loops are structural recursions on a fuel argument; the fuel
  the callers pass never runs out (`parseLoop_fuel_ge`, `arrayLoop_fuel_ge`) and
  the loops end as the source loops do (`parseLoop_exit`, `arrayLoop_exit`);
* `arrayLoopT`, `parseEntryT` and `parseLoopT` are the same loops with the
  indices they read and the iterations they enter recorded; forgetting the
  record gives the loops back (`arrayLoopT_erase`, `parseLoopT_erase`).
-/

namespace Tltv

/-! ## Constants (lines 10-20) -/

def TYPE_INT : UInt8 := 0x01
def TYPE_BOOL : UInt8 := 0x02
def TYPE_STRING : UInt8 := 0x04
def TYPE_ARRAY : UInt8 := 0x05

def TAG_KEY0 : Nat := 0x0001
def TAG_KEY1 : Nat := 0x0002
def TAG_KEY2 : Nat := 0x0003
def TAG_KEY3 : Nat := 0x0004

def ARR_ELEM_TAG : Nat := 0x0001

/-! ## Big-endian helpers (lines 23-55) -/

/-- Lines 23-26: append the two bytes of a 16-bit value, high byte first. -/
def writeUint16Be (out : List UInt8) (v : Nat) : List UInt8 :=
  out ++ [UInt8.ofNat ((v >>> 8) &&& 0xFF), UInt8.ofNat (v &&& 0xFF)]

/-- Lines 27-32: append the four bytes of a 32-bit value, high byte first. -/
def writeUint32Be (out : List UInt8) (v : Nat) : List UInt8 :=
  out ++ [UInt8.ofNat ((v >>> 24) &&& 0xFF), UInt8.ofNat ((v >>> 16) &&& 0xFF),
          UInt8.ofNat ((v >>> 8) &&& 0xFF), UInt8.ofNat (v &&& 0xFF)]

/-- Lines 33-43: append the eight bytes of the two's-complement image of a
signed 64-bit value, high byte first. -/
def writeInt64Be (out : List UInt8) (v : Int) : List UInt8 :=
  let uv : Nat := (v % 2 ^ 64).toNat
  out ++ [UInt8.ofNat ((uv >>> 56) &&& 0xFF), UInt8.ofNat ((uv >>> 48) &&& 0xFF),
          UInt8.ofNat ((uv >>> 40) &&& 0xFF), UInt8.ofNat ((uv >>> 32) &&& 0xFF),
          UInt8.ofNat ((uv >>> 24) &&& 0xFF), UInt8.ofNat ((uv >>> 16) &&& 0xFF),
          UInt8.ofNat ((uv >>> 8) &&& 0xFF), UInt8.ofNat (uv &&& 0xFF)]

/-- Lines 45-47. Each operand is below `2 ^ 8`, so the result fits 16 bits. -/
def readUint16Be (b : List UInt8) (pos : Nat) : Nat :=
  ((b.getD pos 0).toNat <<< 8) ||| (b.getD (pos + 1) 0).toNat

/-- Lines 48-50. Each operand is below `2 ^ 8`, so no shift leaves 32 bits. -/
def readUint32Be (b : List UInt8) (pos : Nat) : Nat :=
  ((b.getD pos 0).toNat <<< 24) ||| ((b.getD (pos + 1) 0).toNat <<< 16)
    ||| ((b.getD (pos + 2) 0).toNat <<< 8) ||| (b.getD (pos + 3) 0).toNat

/-- Lines 51-55: the 64-bit pattern read high byte first, then converted to
`int64_t` (patterns from `2 ^ 63` on are the negative values). -/
def readInt64Be (b : List UInt8) (pos : Nat) : Int :=
  let uv : Nat :=
    ((b.getD pos 0).toNat <<< 56) ||| ((b.getD (pos + 1) 0).toNat <<< 48)
      ||| ((b.getD (pos + 2) 0).toNat <<< 40) ||| ((b.getD (pos + 3) 0).toNat <<< 32)
      ||| ((b.getD (pos + 4) 0).toNat <<< 24) ||| ((b.getD (pos + 5) 0).toNat <<< 16)
      ||| ((b.getD (pos + 6) 0).toNat <<< 8) ||| (b.getD (pos + 7) 0).toNat
  if uv < 2 ^ 63 then (uv : Int) else (uv : Int) - 2 ^ 64

/-! ## Serialization (lines 64-104) -/

/-- Lines 66-71: append one entry to `buf`. The size of the value is narrowed
to `uint32_t` before it is written. -/
def writeTLTV (buf : List UInt8) (tag : Nat) (type : UInt8) (value : List UInt8) :
    List UInt8 :=
  let buf := writeUint16Be buf tag
  let buf := buf ++ [type]
  let buf := writeUint32Be buf (value.length % 2 ^ 32)
  buf ++ value

/-- Lines 95-102: the nested entries of the array, one per element. -/
def writeElems (key3 : List Int) : List UInt8 :=
  key3.foldl
    (fun inner x =>
      let inner := writeUint16Be inner ARR_ELEM_TAG
      let inner := inner ++ [TYPE_INT]
      let inner := writeUint32Be inner 8
      writeInt64Be inner x)
    []

/-- Lines 64-104: the buffer `main` builds from its four values. -/
def serialize (key0 : Bool) (key1 : Int) (key2 : List UInt8) (key3 : List Int) :
    List UInt8 :=
  let buf : List UInt8 := []
  let buf := writeTLTV buf TAG_KEY0 TYPE_BOOL [if key0 then 0x01 else 0x00]
  let buf := writeTLTV buf TAG_KEY1 TYPE_INT (writeInt64Be [] key1)
  let buf := writeTLTV buf TAG_KEY2 TYPE_STRING key2
  writeTLTV buf TAG_KEY3 TYPE_ARRAY (writeElems key3)

/-! ## Parsing (lines 121-166) -/

/-- Lines 122-128, together with what the parse loops print. -/
structure ParseState where
  got_key0 : Bool := false
  got_key0_val : Bool := false
  got_key1 : Bool := false
  got_key1_val : Int := 0
  got_key2 : Bool := false
  got_key2_val : List UInt8 := []
  got_key3_vals : List Int := []
  printed : List String := []
  deriving DecidableEq, Repr

/-- Lines 151-162: the inner loop over the nested entries of an array region
ending at `endp`, from cursor `ip`. Returns the cursor at loop exit and the
state. -/
def arrayLoop : Nat → List UInt8 → Nat → Nat → ParseState → Nat × ParseState
  | 0, _, _, ip, st => (ip, st)
  | fuel + 1, buf, endp, ip, st =>
    if ip + 7 ≤ endp then
      let etag := readUint16Be buf ip
      let etype := buf.getD (ip + 2) 0
      let elen := readUint32Be buf (ip + 3)
      let evalue := ip + 7
      if evalue + elen > endp then
        (ip, { st with printed := st.printed ++ ["truncated inner entry"] })
      else
        let st :=
          if etag = ARR_ELEM_TAG ∧ etype = TYPE_INT ∧ elen = 8 then
            { st with got_key3_vals := st.got_key3_vals ++ [readInt64Be buf evalue] }
          else st
        arrayLoop fuel buf endp (evalue + elen) st
    else (ip, st)

/-- Lines 138-163: the dispatch on a top-level entry whose value region
`[valuePos, valuePos + length)` lies inside the buffer. -/
def parseEntry (buf : List UInt8) (tag : Nat) (type : UInt8) (length valuePos : Nat)
    (st : ParseState) : ParseState :=
  if tag = TAG_KEY0 ∧ type = TYPE_BOOL ∧ length = 1 then
    { st with got_key0 := true, got_key0_val := (buf.getD valuePos 0 != 0x00) }
  else if tag = TAG_KEY1 ∧ type = TYPE_INT ∧ length = 8 then
    { st with got_key1 := true, got_key1_val := readInt64Be buf valuePos }
  else if tag = TAG_KEY2 ∧ type = TYPE_STRING then
    { st with got_key2 := true, got_key2_val := (buf.drop valuePos).take length }
  else if tag = TAG_KEY3 ∧ type = TYPE_ARRAY then
    (arrayLoop length buf (valuePos + length) valuePos st).2
  else st

/-- Lines 131-166: the top-level loop from cursor `pos`. Returns the cursor
at loop exit and the state. -/
def parseLoop : Nat → List UInt8 → Nat → ParseState → Nat × ParseState
  | 0, _, pos, st => (pos, st)
  | fuel + 1, buf, pos, st =>
    if pos + 7 ≤ buf.length then
      let tag := readUint16Be buf pos
      let type := buf.getD (pos + 2) 0
      let length := readUint32Be buf (pos + 3)
      let valuePos := pos + 7
      if valuePos + length > buf.length then
        (pos, { st with printed := st.printed ++ ["truncated entry"] })
      else
        parseLoop fuel buf (valuePos + length) (parseEntry buf tag type length valuePos st)
    else (pos, st)

/-- Lines 121-166: the decoder state is initialised and the loop runs from
cursor 0. -/
def parse (buf : List UInt8) : Nat × ParseState :=
  parseLoop buf.length buf 0 {}

/-- What a run of lines 121-180 on a buffer leaves: the cursor and the state at
loop exit, and the value `main` returns (line 180, the only `return`). -/
structure MainResult where
  pos : Nat
  st : ParseState
  exitCode : Int
  deriving DecidableEq, Repr

/-- Lines 121-180 on a given buffer. -/
def mainFrom (buf : List UInt8) : MainResult :=
  let r := parse buf
  { pos := r.1, st := r.2, exitCode := 0 }

/-- The bytes of the string literal of line 60. -/
def key2Example : List UInt8 :=
  [0x68, 0x65, 0x6C, 0x6C, 0x6F, 0x2C, 0x20, 0x54, 0x4C, 0x54, 0x56, 0x20,
   0x6D, 0x69, 0x6E, 0x69, 0x6D, 0x61, 0x6C]

/-- The program: lines 58-61 fix the example data, the rest serializes and
parses it. -/
def main : MainResult :=
  mainFrom (serialize true 123456789 key2Example [10, 20, 30])

/-! ## Entries, for stating properties of buffers made of complete entries -/

/-- A complete entry: a tag, a type byte and the value bytes. On the wire it
is the 7-byte header followed by exactly the declared number of value bytes. -/
structure Entry where
  tag : Nat
  type : UInt8
  value : List UInt8
  deriving DecidableEq, Repr

/-- The tag fits `uint16_t` and the size of the value fits `uint32_t`. -/
def Entry.WF (e : Entry) : Prop :=
  e.tag < 2 ^ 16 ∧ e.value.length < 2 ^ 32

instance (e : Entry) : Decidable e.WF := by
  unfold Entry.WF; infer_instance

/-- The seven header bytes `writeTLTV` emits for a tag, a type byte and a
(narrowed) length. -/
def header (tag : Nat) (type : UInt8) (len : Nat) : List UInt8 :=
  [UInt8.ofNat ((tag >>> 8) &&& 0xFF), UInt8.ofNat (tag &&& 0xFF), type,
   UInt8.ofNat ((len >>> 24) &&& 0xFF), UInt8.ofNat ((len >>> 16) &&& 0xFF),
   UInt8.ofNat ((len >>> 8) &&& 0xFF), UInt8.ofNat (len &&& 0xFF)]

/-- The bytes `writeTLTV` emits for an entry. -/
def Entry.bytes (e : Entry) : List UInt8 :=
  writeTLTV [] e.tag e.type e.value

/-- The buffer obtained by calling `writeTLTV` for each entry in turn. -/
def encodeEntries (es : List Entry) : List UInt8 :=
  es.foldl (fun buf e => writeTLTV buf e.tag e.type e.value) []

/-- The effect on the decoder state of the dispatch (lines 138-163) on an
entry, computed on the value bytes alone. -/
def applyEntry (st : ParseState) (e : Entry) : ParseState :=
  parseEntry e.value e.tag e.type e.value.length 0 st

/-- A result of a loop with its cursor moved by `n`. -/
def shiftPos (n : Nat) (r : Nat × ParseState) : Nat × ParseState :=
  (n + r.1, r.2)

/-- The top-level loop from cursor 0 with the fuel `parse` gives it, from an
arbitrary decoder state. -/
def run (buf : List UInt8) (st : ParseState) : Nat × ParseState :=
  parseLoop buf.length buf 0 st

/-- The inner loop over the region `[0, endp)` with the fuel `parseEntry`
gives it (the length of the region). -/
def runArray (buf : List UInt8) (endp : Nat) (st : ParseState) : Nat × ParseState :=
  arrayLoop endp buf endp 0 st

/-- The effect on the decoder state of one iteration of the inner loop
(lines 157-160) on a complete nested entry. -/
def applyElem (st : ParseState) (e : Entry) : ParseState :=
  if e.tag = ARR_ELEM_TAG ∧ e.type = TYPE_INT ∧ e.value.length = 8 then
    { st with got_key3_vals := st.got_key3_vals ++ [readInt64Be e.value 0] }
  else st

/-- The nested entry lines 98-101 write for one array element. -/
def elemEntry (x : Int) : Entry :=
  { tag := ARR_ELEM_TAG, type := TYPE_INT, value := writeInt64Be [] x }

/-- The entry lines 74-78 write for `key0`. -/
def key0Entry (key0 : Bool) : Entry :=
  { tag := TAG_KEY0, type := TYPE_BOOL, value := [if key0 then 0x01 else 0x00] }

/-- The entry lines 81-85 write for `key1`. -/
def key1Entry (key1 : Int) : Entry :=
  { tag := TAG_KEY1, type := TYPE_INT, value := writeInt64Be [] key1 }

/-- The entry lines 88-91 write for `key2`. -/
def key2Entry (key2 : List UInt8) : Entry :=
  { tag := TAG_KEY2, type := TYPE_STRING, value := key2 }

/-- The entry lines 94-104 write for `key3`. -/
def key3Entry (key3 : List Int) : Entry :=
  { tag := TAG_KEY3, type := TYPE_ARRAY, value := writeElems key3 }

/-- The four top-level entries lines 73-104 write. -/
def keyEntries (key0 : Bool) (key1 : Int) (key2 : List UInt8) (key3 : List Int) : List Entry :=
  [key0Entry key0, key1Entry key1, key2Entry key2, key3Entry key3]

/-- The range of `int64_t`. -/
def IsInt64 (v : Int) : Prop := -2 ^ 63 ≤ v ∧ v < 2 ^ 63

instance (v : Int) : Decidable (IsInt64 v) := by
  unfold IsInt64; infer_instance

/-- A buffer that is a concatenation of complete entries, read off the bytes:
seven header bytes, then as many value bytes as the length field of the header
declares, then complete entries again. -/
inductive CompleteEntries : List UInt8 → Prop
  | nil : CompleteEntries []
  | entry (hdr value rest : List UInt8) :
      hdr.length = 7 → value.length = readUint32Be hdr 3 → CompleteEntries rest →
      CompleteEntries (hdr ++ (value ++ rest))

/-- An entry the `BOOL` branch (line 138) takes. -/
def IsKey0 (e : Entry) : Prop := e.tag = TAG_KEY0 ∧ e.type = TYPE_BOOL ∧ e.value.length = 1

/-- An entry the `INT` branch (line 141) takes. -/
def IsKey1 (e : Entry) : Prop := e.tag = TAG_KEY1 ∧ e.type = TYPE_INT ∧ e.value.length = 8

/-- An entry the `STRING` branch (line 144) takes. -/
def IsKey2 (e : Entry) : Prop := e.tag = TAG_KEY2 ∧ e.type = TYPE_STRING

/-- An entry the `ARRAY` branch (line 147) takes. -/
def IsKey3 (e : Entry) : Prop := e.tag = TAG_KEY3 ∧ e.type = TYPE_ARRAY

instance : DecidablePred IsKey0 := fun e => by unfold IsKey0; infer_instance
instance : DecidablePred IsKey1 := fun e => by unfold IsKey1; infer_instance
instance : DecidablePred IsKey2 := fun e => by unfold IsKey2; infer_instance
instance : DecidablePred IsKey3 := fun e => by unfold IsKey3; infer_instance

/-- An entry one of the four branches of the dispatch (lines 138-147) takes. -/
def Recognised (e : Entry) : Prop :=
  IsKey0 e ∨ IsKey1 e ∨ IsKey2 e ∨ IsKey3 e

instance (e : Entry) : Decidable (Recognised e) := by
  unfold Recognised; infer_instance

/-- An entry of a fixed-size type whose declared length is not the size of
the type: `BOOL` with a length other than 1, `INT` with a length other than 8. -/
def WrongSize (e : Entry) : Prop :=
  (e.type = TYPE_BOOL ∧ e.value.length ≠ 1) ∨ (e.type = TYPE_INT ∧ e.value.length ≠ 8)

instance (e : Entry) : Decidable (WrongSize e) := by
  unfold WrongSize; infer_instance

/-- The last entry, in buffer order, that satisfies `p`. -/
def lastMatch (p : Entry → Prop) [DecidablePred p] (es : List Entry) : Option Entry :=
  (es.filter (fun e => decide (p e))).getLast?

/-- The elements the inner loop (lines 149-162) accepts from the value region
of an array entry, in region order. -/
def arrayElems (value : List UInt8) : List Int :=
  (runArray value value.length {}).2.got_key3_vals

/-! ## Concrete buffers -/

/-- The buffer of the program's scenario (lines 58-104). -/
def exampleBuf : List UInt8 :=
  serialize true 123456789 key2Example [10, 20, 30]

/-- An array value region whose first nested entry is the element 10 and whose
second nested entry declares 8 value bytes where only 4 are left. -/
def truncatedArrayValue : List UInt8 :=
  writeElems [10] ++ [0x00, 0x01, 0x01, 0x00, 0x00, 0x00, 0x08, 0x00, 0x00, 0x00, 0x14]

/-- A tag 4 `ARRAY` entry over `truncatedArrayValue`. -/
def truncatedArrayEntry : Entry :=
  { tag := TAG_KEY3, type := TYPE_ARRAY, value := truncatedArrayValue }

/-- A tag 1 `BOOL` entry holding `true`. -/
def trueEntry : Entry :=
  { tag := TAG_KEY0, type := TYPE_BOOL, value := [0x01] }

/-- Entries with a repeated scalar tag and two array entries. -/
def duplicateEntries : List Entry :=
  [trueEntry,
   { tag := TAG_KEY3, type := TYPE_ARRAY, value := writeElems [10] },
   { tag := TAG_KEY0, type := TYPE_BOOL, value := [0x00] },
   { tag := TAG_KEY3, type := TYPE_ARRAY, value := writeElems [20, 30] }]

/-! ## The loops with their reads and iterations recorded -/

/-- The indices `readUint16Be b pos` reads (line 46). -/
def readUint16BeIdx (pos : Nat) : List Nat := [pos, pos + 1]

/-- The indices `readUint32Be b pos` reads (line 49). -/
def readUint32BeIdx (pos : Nat) : List Nat := [pos, pos + 1, pos + 2, pos + 3]

/-- The indices `readInt64Be b pos` reads (lines 52-53). -/
def readInt64BeIdx (pos : Nat) : List Nat :=
  [pos, pos + 1, pos + 2, pos + 3, pos + 4, pos + 5, pos + 6, pos + 7]

/-- The indices one header read (lines 132-134, 152-154) touches at `pos`. -/
def headerIdx (pos : Nat) : List Nat :=
  readUint16BeIdx pos ++ [pos + 2] ++ readUint32BeIdx (pos + 3)

/-- What a run of a loop leaves, with what it did on the way: the cursor and
the state at loop exit, the indices of the buffer it read, in order, and the
number of iterations it entered. -/
structure Traced where
  pos : Nat
  st : ParseState
  reads : List Nat
  iters : Nat
  deriving DecidableEq, Repr

/-- The inner loop `arrayLoop` (lines 151-162) with its reads and iterations
recorded. -/
def arrayLoopT : Nat → List UInt8 → Nat → Nat → ParseState → Traced
  | 0, _, _, ip, st => { pos := ip, st := st, reads := [], iters := 0 }
  | fuel + 1, buf, endp, ip, st =>
    if ip + 7 ≤ endp then
      let etag := readUint16Be buf ip
      let etype := buf.getD (ip + 2) 0
      let elen := readUint32Be buf (ip + 3)
      let evalue := ip + 7
      if evalue + elen > endp then
        { pos := ip, st := { st with printed := st.printed ++ ["truncated inner entry"] },
          reads := headerIdx ip, iters := 1 }
      else if etag = ARR_ELEM_TAG ∧ etype = TYPE_INT ∧ elen = 8 then
        let r := arrayLoopT fuel buf endp (evalue + elen)
          { st with got_key3_vals := st.got_key3_vals ++ [readInt64Be buf evalue] }
        { r with reads := headerIdx ip ++ readInt64BeIdx evalue ++ r.reads, iters := r.iters + 1 }
      else
        let r := arrayLoopT fuel buf endp (evalue + elen) st
        { r with reads := headerIdx ip ++ r.reads, iters := r.iters + 1 }
    else { pos := ip, st := st, reads := [], iters := 0 }

/-- The dispatch `parseEntry` (lines 138-163) with its reads recorded. In the
`STRING` branch line 146 first evaluates `buf[valuePos]`, whatever `length`
is, to take its address, and `assign` then reads the `length` bytes of
`[valuePos, valuePos + length)` from there: the index `valuePos` is recorded
first, then the indices of the bytes copied. -/
def parseEntryT (buf : List UInt8) (tag : Nat) (type : UInt8) (length valuePos : Nat)
    (st : ParseState) : ParseState × List Nat :=
  if tag = TAG_KEY0 ∧ type = TYPE_BOOL ∧ length = 1 then
    ({ st with got_key0 := true, got_key0_val := (buf.getD valuePos 0 != 0x00) }, [valuePos])
  else if tag = TAG_KEY1 ∧ type = TYPE_INT ∧ length = 8 then
    ({ st with got_key1 := true, got_key1_val := readInt64Be buf valuePos },
     readInt64BeIdx valuePos)
  else if tag = TAG_KEY2 ∧ type = TYPE_STRING then
    ({ st with got_key2 := true, got_key2_val := (buf.drop valuePos).take length },
     valuePos :: List.range' valuePos length)
  else if tag = TAG_KEY3 ∧ type = TYPE_ARRAY then
    ((arrayLoopT length buf (valuePos + length) valuePos st).st,
     (arrayLoopT length buf (valuePos + length) valuePos st).reads)
  else (st, [])

/-- The top-level loop `parseLoop` (lines 131-166) with its reads and
iterations recorded. -/
def parseLoopT : Nat → List UInt8 → Nat → ParseState → Traced
  | 0, _, pos, st => { pos := pos, st := st, reads := [], iters := 0 }
  | fuel + 1, buf, pos, st =>
    if pos + 7 ≤ buf.length then
      let tag := readUint16Be buf pos
      let type := buf.getD (pos + 2) 0
      let length := readUint32Be buf (pos + 3)
      let valuePos := pos + 7
      if valuePos + length > buf.length then
        { pos := pos, st := { st with printed := st.printed ++ ["truncated entry"] },
          reads := headerIdx pos, iters := 1 }
      else
        let e := parseEntryT buf tag type length valuePos st
        let r := parseLoopT fuel buf (valuePos + length) e.1
        { r with reads := headerIdx pos ++ e.2 ++ r.reads, iters := r.iters + 1 }
    else { pos := pos, st := st, reads := [], iters := 0 }

/-- The decoder `parse` with its reads and iterations recorded. -/
def parseT (buf : List UInt8) : Traced :=
  parseLoopT buf.length buf 0 {}

/-- A nested entry the inner loop accepts as an element (line 157). -/
def IsElem (e : Entry) : Prop :=
  e.tag = ARR_ELEM_TAG ∧ e.type = TYPE_INT ∧ e.value.length = 8

instance : DecidablePred IsElem := fun e => by unfold IsElem; infer_instance

/-- The nested entries of an array region that mixes an element, an `INT`
entry of length 4 under the element tag, a `BOOL` entry, an `INT` entry of
length 8 under tag 2, and an element again. -/
def mixedElems : List Entry :=
  [elemEntry 10,
   { tag := ARR_ELEM_TAG, type := TYPE_INT, value := [0x00, 0x00, 0x00, 0x07] },
   { tag := ARR_ELEM_TAG, type := TYPE_BOOL, value := [0x01] },
   { tag := TAG_KEY1, type := TYPE_INT, value := writeInt64Be [] 15 },
   elemEntry 20]

/-- The buffer `writeTLTV` makes of an empty string under tag 3: a header
declaring length 0 and no value byte. -/
def emptyStringBuf : List UInt8 :=
  [0x00, 0x03, 0x04, 0x00, 0x00, 0x00, 0x00]

/-! # Theorems -/

/-! ## Bytes and big-endian arithmetic -/

theorem getD_shift (pre l : List UInt8) (i : Nat) :
    (pre ++ l).getD (pre.length + i) 0 = l.getD i 0 := by
  rw [List.getD_append_right _ _ _ _ (Nat.le_add_right _ _)]
  simp

theorem getD_front (l post : List UInt8) (i : Nat) (h : i < l.length) :
    (l ++ post).getD i 0 = l.getD i 0 :=
  List.getD_append _ _ _ _ h

theorem lor_eq_add (i a b : Nat) (h : b < 2 ^ i) : (a <<< i) ||| b = a * 2 ^ i + b := by
  rw [Nat.shiftLeft_eq, Nat.mul_comm, Nat.mul_add_lt_is_or h]

theorem lor_eq_add' (i a b c : Nat) (h : b < 2 ^ i) (ha : a = c * 2 ^ i) :
    a ||| b = a + b := by
  subst ha
  rw [Nat.mul_comm, Nat.mul_add_lt_is_or h]

theorem byte_toNat (n : Nat) : (UInt8.ofNat n).toNat = n % 256 := rfl

theorem and_ff (x : Nat) : x &&& 0xFF = x % 256 :=
  Nat.and_pow_two_sub_one_eq_mod x 8

theorem u16_of_bytes (b0 b1 : Nat) (h1 : b1 < 256) :
    (b0 <<< 8) ||| b1 = b0 * 256 + b1 := by
  rw [lor_eq_add 8 b0 b1 (by omega)]
  omega

theorem u32_of_bytes (b0 b1 b2 b3 : Nat) (h1 : b1 < 256) (h2 : b2 < 256)
    (h3 : b3 < 256) :
    (b0 <<< 24) ||| (b1 <<< 16) ||| (b2 <<< 8) ||| b3
      = b0 * 2 ^ 24 + b1 * 2 ^ 16 + b2 * 2 ^ 8 + b3 := by
  simp only [Nat.shiftLeft_eq]
  rw [lor_eq_add' 24 _ (b1 * 2 ^ 16) b0 (by omega) rfl,
    lor_eq_add' 16 _ (b2 * 2 ^ 8) (b0 * 2 ^ 8 + b1) (by omega) (by ring),
    lor_eq_add' 8 _ b3 (b0 * 2 ^ 16 + b1 * 2 ^ 8 + b2) (by omega) (by ring)]

theorem u64_of_bytes (b0 b1 b2 b3 b4 b5 b6 b7 : Nat) (h1 : b1 < 256)
    (h2 : b2 < 256) (h3 : b3 < 256) (h4 : b4 < 256) (h5 : b5 < 256) (h6 : b6 < 256)
    (h7 : b7 < 256) :
    (b0 <<< 56) ||| (b1 <<< 48) ||| (b2 <<< 40) ||| (b3 <<< 32) ||| (b4 <<< 24)
        ||| (b5 <<< 16) ||| (b6 <<< 8) ||| b7
      = b0 * 2 ^ 56 + b1 * 2 ^ 48 + b2 * 2 ^ 40 + b3 * 2 ^ 32 + b4 * 2 ^ 24 + b5 * 2 ^ 16
          + b6 * 2 ^ 8 + b7 := by
  simp only [Nat.shiftLeft_eq]
  rw [lor_eq_add' 56 _ (b1 * 2 ^ 48) b0 (by omega) rfl,
    lor_eq_add' 48 _ (b2 * 2 ^ 40) (b0 * 2 ^ 8 + b1) (by omega) (by ring),
    lor_eq_add' 40 _ (b3 * 2 ^ 32) (b0 * 2 ^ 16 + b1 * 2 ^ 8 + b2) (by omega) (by ring),
    lor_eq_add' 32 _ (b4 * 2 ^ 24) (b0 * 2 ^ 24 + b1 * 2 ^ 16 + b2 * 2 ^ 8 + b3) (by omega)
      (by ring),
    lor_eq_add' 24 _ (b5 * 2 ^ 16)
      (b0 * 2 ^ 32 + b1 * 2 ^ 24 + b2 * 2 ^ 16 + b3 * 2 ^ 8 + b4) (by omega) (by ring),
    lor_eq_add' 16 _ (b6 * 2 ^ 8)
      (b0 * 2 ^ 40 + b1 * 2 ^ 32 + b2 * 2 ^ 24 + b3 * 2 ^ 16 + b4 * 2 ^ 8 + b5) (by omega)
      (by ring),
    lor_eq_add' 8 _ b7
      (b0 * 2 ^ 48 + b1 * 2 ^ 40 + b2 * 2 ^ 32 + b3 * 2 ^ 24 + b4 * 2 ^ 16 + b5 * 2 ^ 8 + b6)
      (by omega) (by ring)]

theorem writeTLTV_eq (buf : List UInt8) (tag : Nat) (type : UInt8) (value : List UInt8) :
    writeTLTV buf tag type value = buf ++ (header tag type (value.length % 2 ^ 32) ++ value) := by
  simp [writeTLTV, writeUint16Be, writeUint32Be, header]

theorem header_length (tag : Nat) (type : UInt8) (len : Nat) :
    (header tag type len).length = 7 := rfl

theorem read_header_tag (tag : Nat) (type : UInt8) (len : Nat) (rest : List UInt8)
    (h : tag < 2 ^ 16) : readUint16Be (header tag type len ++ rest) 0 = tag := by
  simp only [readUint16Be, header, List.cons_append, List.getD_cons_zero, List.getD_cons_succ]
  rw [u16_of_bytes _ _ (UInt8.toNat_lt _)]
  simp only [byte_toNat, and_ff, Nat.shiftRight_eq_div_pow]
  omega

theorem read_header_type (tag : Nat) (type : UInt8) (len : Nat) (rest : List UInt8) :
    (header tag type len ++ rest).getD 2 0 = type := rfl

theorem read_header_len (tag : Nat) (type : UInt8) (len : Nat) (rest : List UInt8)
    (h : len < 2 ^ 32) : readUint32Be (header tag type len ++ rest) 3 = len := by
  simp only [readUint32Be, header, List.cons_append, List.getD_cons_zero, List.getD_cons_succ]
  rw [u32_of_bytes _ _ _ _ (UInt8.toNat_lt _) (UInt8.toNat_lt _) (UInt8.toNat_lt _)]
  simp only [byte_toNat, and_ff, Nat.shiftRight_eq_div_pow]
  omega

theorem readInt64Be_write (v : Int) (rest : List UInt8) (hlo : -2 ^ 63 ≤ v) (hhi : v < 2 ^ 63) :
    readInt64Be (writeInt64Be [] v ++ rest) 0 = v := by
  simp only [readInt64Be, writeInt64Be, List.nil_append, List.cons_append,
    List.getD_cons_zero, List.getD_cons_succ]
  rw [u64_of_bytes _ _ _ _ _ _ _ _ (UInt8.toNat_lt _) (UInt8.toNat_lt _) (UInt8.toNat_lt _)
    (UInt8.toNat_lt _) (UInt8.toNat_lt _) (UInt8.toNat_lt _) (UInt8.toNat_lt _)]
  simp only [byte_toNat, and_ff, Nat.shiftRight_eq_div_pow, Nat.mod_mod]
  generalize huv : (v % 2 ^ 64).toNat = uv
  have h1 : (uv : Int) = v % 2 ^ 64 := by
    rw [← huv]; exact Int.toNat_of_nonneg (Int.emod_nonneg _ (by norm_num))
  have h2 : uv < 2 ^ 64 := by
    have : v % 2 ^ 64 < 2 ^ 64 := Int.emod_lt_of_pos _ (by norm_num)
    omega
  have h3 : uv / 2 ^ 56 % 256 * 2 ^ 56 + uv / 2 ^ 48 % 256 * 2 ^ 48 + uv / 2 ^ 40 % 256 * 2 ^ 40
      + uv / 2 ^ 32 % 256 * 2 ^ 32 + uv / 2 ^ 24 % 256 * 2 ^ 24 + uv / 2 ^ 16 % 256 * 2 ^ 16
      + uv / 2 ^ 8 % 256 * 2 ^ 8 + uv % 256 = uv := by omega
  rw [h3]
  split <;> omega

/-! ## Reads are insensitive to what precedes and what follows -/

theorem readUint16Be_shift (pre l : List UInt8) (i : Nat) :
    readUint16Be (pre ++ l) (pre.length + i) = readUint16Be l i := by
  simp only [readUint16Be, Nat.add_assoc, getD_shift]

theorem readUint32Be_shift (pre l : List UInt8) (i : Nat) :
    readUint32Be (pre ++ l) (pre.length + i) = readUint32Be l i := by
  simp only [readUint32Be, Nat.add_assoc, getD_shift]

theorem readInt64Be_shift (pre l : List UInt8) (i : Nat) :
    readInt64Be (pre ++ l) (pre.length + i) = readInt64Be l i := by
  simp only [readInt64Be, Nat.add_assoc, getD_shift]

theorem readUint16Be_front (l post : List UInt8) (i : Nat) (h : i + 2 ≤ l.length) :
    readUint16Be (l ++ post) i = readUint16Be l i := by
  simp only [readUint16Be]
  rw [getD_front l post i (by omega), getD_front l post (i + 1) (by omega)]

theorem readUint32Be_front (l post : List UInt8) (i : Nat) (h : i + 4 ≤ l.length) :
    readUint32Be (l ++ post) i = readUint32Be l i := by
  simp only [readUint32Be]
  rw [getD_front l post i (by omega), getD_front l post (i + 1) (by omega),
    getD_front l post (i + 2) (by omega), getD_front l post (i + 3) (by omega)]

theorem readInt64Be_front (l post : List UInt8) (i : Nat) (h : i + 8 ≤ l.length) :
    readInt64Be (l ++ post) i = readInt64Be l i := by
  simp only [readInt64Be]
  rw [getD_front l post i (by omega), getD_front l post (i + 1) (by omega),
    getD_front l post (i + 2) (by omega), getD_front l post (i + 3) (by omega),
    getD_front l post (i + 4) (by omega), getD_front l post (i + 5) (by omega),
    getD_front l post (i + 6) (by omega), getD_front l post (i + 7) (by omega)]

/-! ## The inner loop -/

theorem arrayLoop_zero (buf : List UInt8) (endp ip : Nat) (st : ParseState) :
    arrayLoop 0 buf endp ip st = (ip, st) := rfl

theorem arrayLoop_succ (fuel : Nat) (buf : List UInt8) (endp ip : Nat) (st : ParseState) :
    arrayLoop (fuel + 1) buf endp ip st =
      if ip + 7 ≤ endp then
        if ip + 7 + readUint32Be buf (ip + 3) > endp then
          (ip, { st with printed := st.printed ++ ["truncated inner entry"] })
        else
          arrayLoop fuel buf endp (ip + 7 + readUint32Be buf (ip + 3))
            (if readUint16Be buf ip = ARR_ELEM_TAG ∧ buf.getD (ip + 2) 0 = TYPE_INT
                ∧ readUint32Be buf (ip + 3) = 8 then
              { st with got_key3_vals := st.got_key3_vals ++ [readInt64Be buf (ip + 7)] }
            else st)
      else (ip, st) := rfl

/-- Moving a region further into a buffer moves the cursor and nothing else. -/
theorem arrayLoop_shift (pre l : List UInt8) (fuel endp : Nat) :
    ∀ (ip : Nat) (st : ParseState),
      arrayLoop fuel (pre ++ l) (pre.length + endp) (pre.length + ip) st
        = (pre.length + (arrayLoop fuel l endp ip st).1, (arrayLoop fuel l endp ip st).2) := by
  induction fuel with
  | zero => intro ip st; rfl
  | succ n ih =>
    intro ip st
    simp only [arrayLoop_succ, Nat.add_assoc, readUint16Be_shift, readUint32Be_shift,
      readInt64Be_shift, getD_shift, Nat.add_le_add_iff_left, gt_iff_lt, Nat.add_lt_add_iff_left]
    by_cases h1 : ip + 7 ≤ endp
    · by_cases h2 : endp < ip + (7 + readUint32Be l (ip + 3))
      · simp only [h1, h2, if_true]
      · simp only [h1, h2, if_true, if_false]
        exact ih _ _
    · simp only [h1, if_false]

/-- The inner loop reads nothing at or beyond the end of its region. -/
theorem arrayLoop_front (l post : List UInt8) (fuel endp : Nat) (hend : endp ≤ l.length) :
    ∀ (ip : Nat) (st : ParseState),
      arrayLoop fuel (l ++ post) endp ip st = arrayLoop fuel l endp ip st := by
  induction fuel with
  | zero => intro ip st; rfl
  | succ n ih =>
    intro ip st
    simp only [arrayLoop_succ]
    by_cases h1 : ip + 7 ≤ endp
    · have e16 := readUint16Be_front l post ip (by omega)
      have e8 := getD_front l post (ip + 2) (by omega)
      have e32 := readUint32Be_front l post (ip + 3) (by omega)
      simp only [h1, if_true, e16, e8, e32]
      by_cases h2 : ip + 7 + readUint32Be l (ip + 3) > endp
      · simp only [h2, if_true]
      · simp only [h2, if_false]
        rw [ih]
        by_cases h3 : readUint32Be l (ip + 3) = 8
        · rw [readInt64Be_front l post (ip + 7) (by omega)]
        · simp only [h3, and_false, if_false]
    · simp only [h1, if_false]

/-- Fuel is sufficient for the inner loop once seven times its successor
exceeds the bytes left in the region; any two sufficient amounts agree. -/
theorem arrayLoop_fuel (buf : List UInt8) (endp : Nat) :
    ∀ (f g ip : Nat) (st : ParseState), endp < ip + 7 * (f + 1) → endp < ip + 7 * (g + 1) →
      arrayLoop f buf endp ip st = arrayLoop g buf endp ip st := by
  intro f
  induction f with
  | zero =>
    intro g ip st hf _
    cases g with
    | zero => rfl
    | succ m =>
      have h1 : ¬ ip + 7 ≤ endp := by omega
      simp only [arrayLoop_succ, arrayLoop_zero, h1, if_false]
  | succ n ih =>
    intro g ip st hf hg
    cases g with
    | zero =>
      have h1 : ¬ ip + 7 ≤ endp := by omega
      simp only [arrayLoop_succ, arrayLoop_zero, h1, if_false]
    | succ m =>
      simp only [arrayLoop_succ]
      by_cases h1 : ip + 7 ≤ endp
      · by_cases h2 : ip + 7 + readUint32Be buf (ip + 3) > endp
        · simp only [h1, h2, if_true]
        · simp only [h1, h2, if_true, if_false]
          exact ih _ _ _ (by omega) (by omega)
      · simp only [h1, if_false]

/-! ## The dispatch and the top-level loop -/

theorem parseEntry_shift (pre l : List UInt8) (tag : Nat) (type : UInt8) (length valuePos : Nat)
    (st : ParseState) :
    parseEntry (pre ++ l) tag type length (pre.length + valuePos) st
      = parseEntry l tag type length valuePos st := by
  have hd : List.drop (pre.length + valuePos) (pre ++ l) = List.drop valuePos l := by
    rw [List.drop_append]
  simp only [parseEntry, getD_shift, readInt64Be_shift, hd, Nat.add_assoc, arrayLoop_shift]

theorem parseEntry_front (l post : List UInt8) (tag : Nat) (type : UInt8) (length valuePos : Nat)
    (st : ParseState) (h : valuePos + length ≤ l.length) :
    parseEntry (l ++ post) tag type length valuePos st
      = parseEntry l tag type length valuePos st := by
  simp only [parseEntry]
  by_cases h0 : tag = TAG_KEY0 ∧ type = TYPE_BOOL ∧ length = 1
  · simp only [h0, and_self, if_true]
    rw [getD_front l post valuePos (by omega)]
  · simp only [h0, if_false]
    by_cases h1 : tag = TAG_KEY1 ∧ type = TYPE_INT ∧ length = 8
    · simp only [h1, and_self, if_true]
      rw [readInt64Be_front l post valuePos (by omega)]
    · simp only [h1, if_false]
      have hd : List.take length (List.drop valuePos (l ++ post))
          = List.take length (List.drop valuePos l) := by
        rw [List.drop_append_of_le_length (by omega), List.take_append_of_le_length]
        rw [List.length_drop]; omega
      rw [hd, arrayLoop_front l post length (valuePos + length) h]

theorem parseLoop_zero (buf : List UInt8) (pos : Nat) (st : ParseState) :
    parseLoop 0 buf pos st = (pos, st) := rfl

theorem parseLoop_succ (fuel : Nat) (buf : List UInt8) (pos : Nat) (st : ParseState) :
    parseLoop (fuel + 1) buf pos st =
      if pos + 7 ≤ buf.length then
        if pos + 7 + readUint32Be buf (pos + 3) > buf.length then
          (pos, { st with printed := st.printed ++ ["truncated entry"] })
        else
          parseLoop fuel buf (pos + 7 + readUint32Be buf (pos + 3))
            (parseEntry buf (readUint16Be buf pos) (buf.getD (pos + 2) 0)
              (readUint32Be buf (pos + 3)) (pos + 7) st)
      else (pos, st) := rfl

/-- Bytes put in front of a buffer move the cursor and nothing else. -/
theorem parseLoop_shift (pre l : List UInt8) (fuel : Nat) :
    ∀ (pos : Nat) (st : ParseState),
      parseLoop fuel (pre ++ l) (pre.length + pos) st = shiftPos pre.length (parseLoop fuel l pos st) := by
  induction fuel with
  | zero => intro pos st; rfl
  | succ n ih =>
    intro pos st
    simp only [parseLoop_succ, Nat.add_assoc, readUint16Be_shift, readUint32Be_shift,
      getD_shift, parseEntry_shift, List.length_append, Nat.add_le_add_iff_left, gt_iff_lt,
      Nat.add_lt_add_iff_left]
    by_cases h1 : pos + 7 ≤ l.length
    · by_cases h2 : l.length < pos + (7 + readUint32Be l (pos + 3))
      · simp only [h1, h2, if_true, shiftPos]
      · simp only [h1, h2, if_true, if_false]
        exact ih _ _
    · simp only [h1, if_false, shiftPos]

/-- Fuel is sufficient for the top-level loop once seven times its successor
exceeds the bytes left in the buffer; any two sufficient amounts agree. -/
theorem parseLoop_fuel (buf : List UInt8) :
    ∀ (f g pos : Nat) (st : ParseState), buf.length < pos + 7 * (f + 1) →
      buf.length < pos + 7 * (g + 1) → parseLoop f buf pos st = parseLoop g buf pos st := by
  intro f
  induction f with
  | zero =>
    intro g pos st hf _
    cases g with
    | zero => rfl
    | succ m =>
      have h1 : ¬ pos + 7 ≤ buf.length := by omega
      simp only [parseLoop_succ, parseLoop_zero, h1, if_false]
  | succ n ih =>
    intro g pos st hf hg
    cases g with
    | zero =>
      have h1 : ¬ pos + 7 ≤ buf.length := by omega
      simp only [parseLoop_succ, parseLoop_zero, h1, if_false]
    | succ m =>
      simp only [parseLoop_succ]
      by_cases h1 : pos + 7 ≤ buf.length
      · by_cases h2 : pos + 7 + readUint32Be buf (pos + 3) > buf.length
        · simp only [h1, h2, if_true]
        · simp only [h1, h2, if_true, if_false]
          exact ih _ _ _ (by omega) (by omega)
      · simp only [h1, if_false]

theorem Entry.bytes_eq (e : Entry) :
    e.bytes = header e.tag e.type (e.value.length % 2 ^ 32) ++ e.value := by
  simp [Entry.bytes, writeTLTV_eq]

theorem Entry.bytes_length (e : Entry) : e.bytes.length = 7 + e.value.length := by
  simp [Entry.bytes_eq, header_length]

theorem encodeEntries_foldl (es : List Entry) :
    ∀ buf : List UInt8,
      es.foldl (fun buf e => writeTLTV buf e.tag e.type e.value) buf = buf ++ encodeEntries es := by
  induction es with
  | nil => intro buf; simp [encodeEntries]
  | cons e es ih =>
    intro buf
    simp only [encodeEntries, List.foldl_cons]
    rw [ih (writeTLTV buf e.tag e.type e.value), ih (writeTLTV [] e.tag e.type e.value)]
    simp [writeTLTV_eq, encodeEntries]

theorem encodeEntries_nil : encodeEntries [] = [] := rfl

theorem encodeEntries_cons (e : Entry) (es : List Entry) :
    encodeEntries (e :: es) = e.bytes ++ encodeEntries es := by
  simp only [encodeEntries, List.foldl_cons]
  rw [encodeEntries_foldl]
  rfl

theorem encodeEntries_append (es fs : List Entry) :
    encodeEntries (es ++ fs) = encodeEntries es ++ encodeEntries fs := by
  induction es with
  | nil => simp [encodeEntries_nil]
  | cons e es ih => simp [encodeEntries_cons, ih]

/-- One iteration on a complete entry at the front of the buffer: the entry
is dispatched on its own value bytes and the loop goes on behind it. -/
theorem parseLoop_entry (fuel : Nat) (e : Entry) (rest : List UInt8) (st : ParseState)
    (hwf : e.WF) :
    parseLoop (fuel + 1) (e.bytes ++ rest) 0 st
      = shiftPos e.bytes.length (parseLoop fuel rest 0 (applyEntry st e)) := by
  obtain ⟨htag, hlen⟩ := hwf
  have hmod : e.value.length % 2 ^ 32 = e.value.length := Nat.mod_eq_of_lt hlen
  have hb : e.bytes ++ rest
      = header e.tag e.type e.value.length ++ (e.value ++ rest) := by
    rw [Entry.bytes_eq, hmod, List.append_assoc]
  have hl : (e.bytes ++ rest).length = 7 + e.value.length + rest.length := by
    rw [List.length_append, Entry.bytes_length]
  rw [parseLoop_succ]
  have e32 : readUint32Be (e.bytes ++ rest) (0 + 3) = e.value.length := by
    rw [hb]; exact read_header_len _ _ _ _ hlen
  have e16 : readUint16Be (e.bytes ++ rest) 0 = e.tag := by
    rw [hb]; exact read_header_tag _ _ _ _ htag
  have e8 : (e.bytes ++ rest).getD (0 + 2) 0 = e.type := by
    rw [hb]; exact read_header_type _ _ _ _
  rw [e32, e16, e8]
  have h1 : 0 + 7 ≤ (e.bytes ++ rest).length := by omega
  have h2 : ¬ 0 + 7 + e.value.length > (e.bytes ++ rest).length := by omega
  simp only [h1, h2, if_true, if_false]
  have hpe : parseEntry (e.bytes ++ rest) e.tag e.type e.value.length (0 + 7) st
      = applyEntry st e := by
    rw [hb]
    have := parseEntry_shift (header e.tag e.type e.value.length) (e.value ++ rest) e.tag e.type
      e.value.length 0 st
    rw [header_length] at this
    rw [this, parseEntry_front _ _ _ _ _ _ _ (by omega)]
    rfl
  rw [hpe]
  have hpos : 0 + 7 + e.value.length = e.bytes.length + 0 := by
    rw [Entry.bytes_length]; omega
  rw [hpos, parseLoop_shift]

theorem parse_eq_run (buf : List UInt8) : parse buf = run buf {} := rfl

theorem run_entry (e : Entry) (rest : List UInt8) (st : ParseState) (hwf : e.WF) :
    run (e.bytes ++ rest) st = shiftPos e.bytes.length (run rest (applyEntry st e)) := by
  unfold run
  have hl : (e.bytes ++ rest).length = (6 + e.value.length + rest.length) + 1 := by
    rw [List.length_append, Entry.bytes_length]; omega
  rw [hl, parseLoop_entry _ _ _ _ hwf]
  rw [parseLoop_fuel rest (6 + e.value.length + rest.length) rest.length 0 _ (by omega) (by omega)]

theorem run_entries (es : List Entry) (hwf : ∀ e ∈ es, e.WF) :
    ∀ (rest : List UInt8) (st : ParseState),
      run (encodeEntries es ++ rest) st
        = shiftPos (encodeEntries es).length (run rest (es.foldl applyEntry st)) := by
  induction es with
  | nil => intro rest st; simp [encodeEntries_nil, shiftPos]
  | cons e es ih =>
    intro rest st
    have hwf' : ∀ x ∈ es, x.WF := fun x hx => hwf x (List.mem_cons_of_mem _ hx)
    rw [encodeEntries_cons, List.append_assoc, run_entry _ _ _ (hwf e (List.mem_cons_self _ _)),
      ih hwf', List.foldl_cons]
    simp only [shiftPos, List.length_append, Nat.add_assoc]

/-! ## The fuel never runs out; how the loops end -/

/-- More fuel than `parse` passes changes nothing. -/
theorem parseLoop_fuel_ge (buf : List UInt8) (f : Nat) (st : ParseState) (h : buf.length ≤ f) :
    parseLoop f buf 0 st = run buf st :=
  parseLoop_fuel buf f buf.length 0 st (by omega) (by omega)

/-- More fuel than `parseEntry` passes to the inner loop changes nothing. -/
theorem arrayLoop_fuel_ge (buf : List UInt8) (length valuePos f : Nat) (st : ParseState)
    (h : length ≤ f) :
    arrayLoop f buf (valuePos + length) valuePos st
      = arrayLoop length buf (valuePos + length) valuePos st :=
  arrayLoop_fuel buf (valuePos + length) f length valuePos st (by omega) (by omega)

/-- With sufficient fuel the top-level loop ends where the source loop ends:
at a cursor that leaves no room for a header, or on a truncated entry. -/
theorem parseLoop_exit (buf : List UInt8) (fuel : Nat) :
    ∀ (pos : Nat) (st : ParseState), buf.length < pos + 7 * (fuel + 1) →
      buf.length < (parseLoop fuel buf pos st).1 + 7
        ∨ buf.length < (parseLoop fuel buf pos st).1 + 7
            + readUint32Be buf ((parseLoop fuel buf pos st).1 + 3) := by
  induction fuel with
  | zero => intro pos st h; left; rw [parseLoop_zero]; omega
  | succ n ih =>
    intro pos st h
    rw [parseLoop_succ]
    by_cases h1 : pos + 7 ≤ buf.length
    · by_cases h2 : pos + 7 + readUint32Be buf (pos + 3) > buf.length
      · rw [if_pos h1, if_pos h2]; right; exact h2
      · rw [if_pos h1, if_neg h2]
        exact ih _ _ (by omega)
    · rw [if_neg h1]; left; omega

/-- With sufficient fuel the inner loop ends where the source loop ends: at a
cursor that leaves no room for a header in the region, or on a truncated
nested entry. -/
theorem arrayLoop_exit (buf : List UInt8) (endp fuel : Nat) :
    ∀ (ip : Nat) (st : ParseState), endp < ip + 7 * (fuel + 1) →
      endp < (arrayLoop fuel buf endp ip st).1 + 7
        ∨ endp < (arrayLoop fuel buf endp ip st).1 + 7
            + readUint32Be buf ((arrayLoop fuel buf endp ip st).1 + 3) := by
  induction fuel with
  | zero => intro ip st h; left; rw [arrayLoop_zero]; omega
  | succ n ih =>
    intro ip st h
    rw [arrayLoop_succ]
    by_cases h1 : ip + 7 ≤ endp
    · by_cases h2 : ip + 7 + readUint32Be buf (ip + 3) > endp
      · rw [if_pos h1, if_pos h2]; right; exact h2
      · rw [if_pos h1, if_neg h2]
        exact ih _ _ (by omega)
    · rw [if_neg h1]; left; omega

/-! ## Buffers of complete entries are the encodings of entry lists -/

theorem readUint16Be_lt (b : List UInt8) (pos : Nat) : readUint16Be b pos < 2 ^ 16 := by
  unfold readUint16Be
  rw [u16_of_bytes _ _ (UInt8.toNat_lt _)]
  have h0 := UInt8.toNat_lt (b.getD pos 0)
  have h1 := UInt8.toNat_lt (b.getD (pos + 1) 0)
  omega

theorem readUint32Be_lt (b : List UInt8) (pos : Nat) : readUint32Be b pos < 2 ^ 32 := by
  unfold readUint32Be
  rw [u32_of_bytes _ _ _ _ (UInt8.toNat_lt _) (UInt8.toNat_lt _) (UInt8.toNat_lt _)]
  have h0 := UInt8.toNat_lt (b.getD pos 0)
  have h1 := UInt8.toNat_lt (b.getD (pos + 1) 0)
  have h2 := UInt8.toNat_lt (b.getD (pos + 2) 0)
  have h3 := UInt8.toNat_lt (b.getD (pos + 3) 0)
  omega

/-- Seven bytes are the header of the tag, type and length read from them. -/
theorem header_of_read (hdr : List UInt8) (h : hdr.length = 7) :
    header (readUint16Be hdr 0) (hdr.getD 2 0) (readUint32Be hdr 3) = hdr := by
  match hdr, h with
  | [b0, b1, b2, b3, b4, b5, b6], _ =>
    simp only [readUint16Be, readUint32Be, header, List.getD_cons_zero, List.getD_cons_succ]
    rw [u16_of_bytes _ _ (UInt8.toNat_lt _),
      u32_of_bytes _ _ _ _ (UInt8.toNat_lt _) (UInt8.toNat_lt _) (UInt8.toNat_lt _)]
    simp only [and_ff, Nat.shiftRight_eq_div_pow]
    have h0 := UInt8.toNat_lt b0
    have h1 := UInt8.toNat_lt b1
    have h3 := UInt8.toNat_lt b3
    have h4 := UInt8.toNat_lt b4
    have h5 := UInt8.toNat_lt b5
    have h6 := UInt8.toNat_lt b6
    have e0 : UInt8.ofNat ((b0.toNat * 256 + b1.toNat) / 2 ^ 8 % 256) = b0 := by
      apply UInt8.ext; rw [byte_toNat]; omega
    have e1 : UInt8.ofNat ((b0.toNat * 256 + b1.toNat) % 256) = b1 := by
      apply UInt8.ext; rw [byte_toNat]; omega
    have e3 : UInt8.ofNat ((b3.toNat * 2 ^ 24 + b4.toNat * 2 ^ 16 + b5.toNat * 2 ^ 8 + b6.toNat)
        / 2 ^ 24 % 256) = b3 := by
      apply UInt8.ext; rw [byte_toNat]; omega
    have e4 : UInt8.ofNat ((b3.toNat * 2 ^ 24 + b4.toNat * 2 ^ 16 + b5.toNat * 2 ^ 8 + b6.toNat)
        / 2 ^ 16 % 256) = b4 := by
      apply UInt8.ext; rw [byte_toNat]; omega
    have e5 : UInt8.ofNat ((b3.toNat * 2 ^ 24 + b4.toNat * 2 ^ 16 + b5.toNat * 2 ^ 8 + b6.toNat)
        / 2 ^ 8 % 256) = b5 := by
      apply UInt8.ext; rw [byte_toNat]; omega
    have e6 : UInt8.ofNat ((b3.toNat * 2 ^ 24 + b4.toNat * 2 ^ 16 + b5.toNat * 2 ^ 8 + b6.toNat)
        % 256) = b6 := by
      apply UInt8.ext; rw [byte_toNat]; omega
    rw [e0, e1, e3, e4, e5, e6]

/-- The buffers every theorem on entry lists speaks of are exactly the byte
sequences made of complete entries. -/
theorem completeEntries_iff (buf : List UInt8) :
    CompleteEntries buf ↔ ∃ es : List Entry, (∀ e ∈ es, e.WF) ∧ buf = encodeEntries es := by
  constructor
  · intro h
    induction h with
    | nil => exact ⟨[], by simp, rfl⟩
    | entry hdr value rest h7 hlen _ ih =>
      obtain ⟨es, hwf, hes⟩ := ih
      have hv : value.length < 2 ^ 32 := by rw [hlen]; exact readUint32Be_lt _ _
      refine ⟨{ tag := readUint16Be hdr 0, type := hdr.getD 2 0, value := value } :: es, ?_, ?_⟩
      · intro e he
        rcases List.mem_cons.mp he with rfl | he
        · exact ⟨readUint16Be_lt _ _, hv⟩
        · exact hwf e he
      · rw [encodeEntries_cons, Entry.bytes_eq, Nat.mod_eq_of_lt hv, hlen, header_of_read hdr h7,
          hes, List.append_assoc]
  · rintro ⟨es, hwf, rfl⟩
    induction es with
    | nil => exact CompleteEntries.nil
    | cons e es ih =>
      have he := hwf e (List.mem_cons_self _ _)
      rw [encodeEntries_cons, Entry.bytes_eq, Nat.mod_eq_of_lt he.2, List.append_assoc]
      refine CompleteEntries.entry _ _ _ (header_length _ _ _) ?_
        (ih (fun x hx => hwf x (List.mem_cons_of_mem _ hx)))
      have := read_header_len e.tag e.type e.value.length [] he.2
      rw [List.append_nil] at this
      exact this.symm

/-! ## The inner loop on complete nested entries -/

theorem arrayLoop_entry (fuel : Nat) (e : Entry) (rest : List UInt8) (endp : Nat)
    (st : ParseState) (hwf : e.WF) :
    arrayLoop (fuel + 1) (e.bytes ++ rest) (e.bytes.length + endp) 0 st
      = shiftPos e.bytes.length (arrayLoop fuel rest endp 0 (applyElem st e)) := by
  obtain ⟨htag, hlen⟩ := hwf
  have hmod : e.value.length % 2 ^ 32 = e.value.length := Nat.mod_eq_of_lt hlen
  have hb : e.bytes ++ rest
      = header e.tag e.type e.value.length ++ (e.value ++ rest) := by
    rw [Entry.bytes_eq, hmod, List.append_assoc]
  have hbl := Entry.bytes_length e
  rw [arrayLoop_succ]
  have e32 : readUint32Be (e.bytes ++ rest) (0 + 3) = e.value.length := by
    rw [hb]; exact read_header_len _ _ _ _ hlen
  have e16 : readUint16Be (e.bytes ++ rest) 0 = e.tag := by
    rw [hb]; exact read_header_tag _ _ _ _ htag
  have e8 : (e.bytes ++ rest).getD (0 + 2) 0 = e.type := by
    rw [hb]; exact read_header_type _ _ _ _
  rw [e32, e16, e8]
  have h1 : 0 + 7 ≤ e.bytes.length + endp := by omega
  have h2 : ¬ 0 + 7 + e.value.length > e.bytes.length + endp := by omega
  simp only [h1, h2, if_true, if_false]
  have hst : (if e.tag = ARR_ELEM_TAG ∧ e.type = TYPE_INT ∧ e.value.length = 8 then
        { st with got_key3_vals := st.got_key3_vals ++ [readInt64Be (e.bytes ++ rest) (0 + 7)] }
      else st) = applyElem st e := by
    unfold applyElem
    by_cases hc : e.tag = ARR_ELEM_TAG ∧ e.type = TYPE_INT ∧ e.value.length = 8
    · simp only [hc, and_self, if_true]
      have h64 : readInt64Be (e.bytes ++ rest) (0 + 7) = readInt64Be e.value 0 := by
        rw [hb]
        have := readInt64Be_shift (header e.tag e.type e.value.length) (e.value ++ rest) 0
        rw [header_length] at this
        rw [Nat.add_comm 0 7, this, readInt64Be_front _ _ _ (by omega)]
      rw [h64]
    · simp only [hc, if_false]
  rw [hst]
  have hpos : 0 + 7 + e.value.length = e.bytes.length + 0 := by omega
  rw [hpos, arrayLoop_shift]
  rfl

theorem runArray_entry (e : Entry) (rest : List UInt8) (endp : Nat) (st : ParseState)
    (hwf : e.WF) :
    runArray (e.bytes ++ rest) (e.bytes.length + endp) st
      = shiftPos e.bytes.length (runArray rest endp (applyElem st e)) := by
  unfold runArray
  have hl : e.bytes.length + endp = (6 + e.value.length + endp) + 1 := by
    rw [Entry.bytes_length]; omega
  rw [show arrayLoop (e.bytes.length + endp) (e.bytes ++ rest) (e.bytes.length + endp) 0 st
      = arrayLoop ((6 + e.value.length + endp) + 1) (e.bytes ++ rest) (e.bytes.length + endp) 0 st
      from by rw [← hl]]
  rw [arrayLoop_entry _ _ _ _ _ hwf]
  rw [arrayLoop_fuel rest endp (6 + e.value.length + endp) endp 0 _ (by omega) (by omega)]

theorem runArray_entries (es : List Entry) (hwf : ∀ e ∈ es, e.WF) :
    ∀ (rest : List UInt8) (endp : Nat) (st : ParseState),
      runArray (encodeEntries es ++ rest) ((encodeEntries es).length + endp) st
        = shiftPos (encodeEntries es).length (runArray rest endp (es.foldl applyElem st)) := by
  induction es with
  | nil => intro rest endp st; simp [encodeEntries_nil, shiftPos]
  | cons e es ih =>
    intro rest endp st
    have hwf' : ∀ x ∈ es, x.WF := fun x hx => hwf x (List.mem_cons_of_mem _ hx)
    rw [encodeEntries_cons, List.append_assoc, List.length_append, Nat.add_assoc,
      runArray_entry _ _ _ _ (hwf e (List.mem_cons_self _ _)), ih hwf', List.foldl_cons]
    simp only [shiftPos, Nat.add_assoc]

theorem runArray_nil (endp : Nat) (st : ParseState) (h : endp < 7) :
    runArray [] endp st = (0, st) := by
  unfold runArray
  cases endp with
  | zero => rfl
  | succ n =>
    have h1 : ¬ 0 + 7 ≤ n + 1 := by omega
    simp only [arrayLoop_succ, h1, if_false]

/-! ## The serializer writes entries -/

theorem writeInt64Be_length (v : Int) : (writeInt64Be [] v).length = 8 := rfl

theorem elemEntry_wf (x : Int) : (elemEntry x).WF := by
  unfold Entry.WF elemEntry ARR_ELEM_TAG
  simp only [writeInt64Be_length]
  omega

theorem writeElems_eq (key3 : List Int) :
    writeElems key3 = encodeEntries (key3.map elemEntry) := by
  unfold writeElems encodeEntries
  rw [List.foldl_map]
  rfl

theorem encodeEntries_elems_length (key3 : List Int) :
    (encodeEntries (key3.map elemEntry)).length = 15 * key3.length := by
  induction key3 with
  | nil => rfl
  | cons x xs ih =>
    rw [List.map_cons, encodeEntries_cons, List.length_append, ih, Entry.bytes_length]
    simp only [elemEntry, writeInt64Be_length, List.length_cons]
    omega

theorem writeElems_length (key3 : List Int) : (writeElems key3).length = 15 * key3.length := by
  rw [writeElems_eq, encodeEntries_elems_length]

theorem serialize_eq (key0 : Bool) (key1 : Int) (key2 : List UInt8) (key3 : List Int) :
    serialize key0 key1 key2 key3 = encodeEntries (keyEntries key0 key1 key2 key3) := rfl

theorem keyEntries_wf (key0 : Bool) (key1 : Int) (key2 : List UInt8) (key3 : List Int)
    (h2 : key2.length < 2 ^ 32) (h3 : 15 * key3.length < 2 ^ 32) :
    ∀ e ∈ keyEntries key0 key1 key2 key3, e.WF := by
  intro e he
  simp only [keyEntries, List.mem_cons, List.mem_singleton, List.not_mem_nil, or_false] at he
  rcases he with rfl | rfl | rfl | rfl
  · exact ⟨by simp [key0Entry, TAG_KEY0], by simp [key0Entry]⟩
  · exact ⟨by simp [key1Entry, TAG_KEY1], by simp [key1Entry, writeInt64Be_length]⟩
  · exact ⟨by simp [key2Entry, TAG_KEY2], h2⟩
  · exact ⟨by simp [key3Entry, TAG_KEY3], by simp only [key3Entry, writeElems_length]; exact h3⟩

theorem foldl_applyElem_elems (key3 : List Int) (h : ∀ x ∈ key3, IsInt64 x) :
    ∀ st : ParseState,
      (key3.map elemEntry).foldl applyElem st
        = { st with got_key3_vals := st.got_key3_vals ++ key3 } := by
  induction key3 with
  | nil => intro st; simp
  | cons x xs ih =>
    intro st
    have hx := h x (List.mem_cons_self _ _)
    have hxs : ∀ y ∈ xs, IsInt64 y := fun y hy => h y (List.mem_cons_of_mem _ hy)
    rw [List.map_cons, List.foldl_cons, ih hxs]
    have hr : readInt64Be (writeInt64Be [] x) 0 = x := by
      have := readInt64Be_write x [] hx.1 hx.2
      rwa [List.append_nil] at this
    simp [applyElem, elemEntry, writeInt64Be_length, hr]

/-! ## The dispatch, case by case -/

theorem tags_ne : TAG_KEY0 ≠ TAG_KEY1 ∧ TAG_KEY0 ≠ TAG_KEY2 ∧ TAG_KEY0 ≠ TAG_KEY3
    ∧ TAG_KEY1 ≠ TAG_KEY2 ∧ TAG_KEY1 ≠ TAG_KEY3 ∧ TAG_KEY2 ≠ TAG_KEY3 := by decide

theorem applyEntry_bool (st : ParseState) (e : Entry)
    (h : e.tag = TAG_KEY0 ∧ e.type = TYPE_BOOL ∧ e.value.length = 1) :
    applyEntry st e = { st with got_key0 := true, got_key0_val := (e.value.getD 0 0 != 0x00) } := by
  unfold applyEntry parseEntry
  rw [if_pos h]

theorem applyEntry_int (st : ParseState) (e : Entry)
    (h : e.tag = TAG_KEY1 ∧ e.type = TYPE_INT ∧ e.value.length = 8) :
    applyEntry st e = { st with got_key1 := true, got_key1_val := readInt64Be e.value 0 } := by
  have h0 : ¬ (e.tag = TAG_KEY0 ∧ e.type = TYPE_BOOL ∧ e.value.length = 1) := by
    rw [h.1]; intro hc; exact tags_ne.1 hc.1.symm
  unfold applyEntry parseEntry
  rw [if_neg h0, if_pos h]

theorem applyEntry_string (st : ParseState) (e : Entry)
    (h : e.tag = TAG_KEY2 ∧ e.type = TYPE_STRING) :
    applyEntry st e = { st with got_key2 := true, got_key2_val := e.value } := by
  have h0 : ¬ (e.tag = TAG_KEY0 ∧ e.type = TYPE_BOOL ∧ e.value.length = 1) := by
    rw [h.1]; intro hc; exact tags_ne.2.1 hc.1.symm
  have h1 : ¬ (e.tag = TAG_KEY1 ∧ e.type = TYPE_INT ∧ e.value.length = 8) := by
    rw [h.1]; intro hc; exact tags_ne.2.2.2.1 hc.1.symm
  unfold applyEntry parseEntry
  rw [if_neg h0, if_neg h1, if_pos h, List.drop_zero, List.take_length]

theorem applyEntry_array (st : ParseState) (e : Entry)
    (h : e.tag = TAG_KEY3 ∧ e.type = TYPE_ARRAY) :
    applyEntry st e = (runArray e.value e.value.length st).2 := by
  have h0 : ¬ (e.tag = TAG_KEY0 ∧ e.type = TYPE_BOOL ∧ e.value.length = 1) := by
    rw [h.1]; intro hc; exact tags_ne.2.2.1 hc.1.symm
  have h1 : ¬ (e.tag = TAG_KEY1 ∧ e.type = TYPE_INT ∧ e.value.length = 8) := by
    rw [h.1]; intro hc; exact tags_ne.2.2.2.2.1 hc.1.symm
  have h2 : ¬ (e.tag = TAG_KEY2 ∧ e.type = TYPE_STRING) := by
    rw [h.1]; intro hc; exact tags_ne.2.2.2.2.2 hc.1.symm
  unfold applyEntry parseEntry
  rw [if_neg h0, if_neg h1, if_neg h2, if_pos h, Nat.zero_add]
  rfl

theorem applyEntry_other (st : ParseState) (e : Entry)
    (h0 : ¬ (e.tag = TAG_KEY0 ∧ e.type = TYPE_BOOL ∧ e.value.length = 1))
    (h1 : ¬ (e.tag = TAG_KEY1 ∧ e.type = TYPE_INT ∧ e.value.length = 8))
    (h2 : ¬ (e.tag = TAG_KEY2 ∧ e.type = TYPE_STRING))
    (h3 : ¬ (e.tag = TAG_KEY3 ∧ e.type = TYPE_ARRAY)) :
    applyEntry st e = st := by
  unfold applyEntry parseEntry
  rw [if_neg h0, if_neg h1, if_neg h2, if_neg h3]

theorem run_nil (st : ParseState) : run [] st = (0, st) := rfl

/-- Decoding a buffer made of complete entries applies them in order and
ends at the end of the buffer. -/
theorem run_encodeEntries (es : List Entry) (hwf : ∀ e ∈ es, e.WF) (st : ParseState) :
    run (encodeEntries es) st = ((encodeEntries es).length, es.foldl applyEntry st) := by
  have h := run_entries es hwf [] st
  rw [List.append_nil, run_nil] at h
  rw [h]
  rfl

theorem runArray_elems (key3 : List Int) (h : ∀ x ∈ key3, IsInt64 x) (st : ParseState) :
    runArray (writeElems key3) (writeElems key3).length st
      = ((writeElems key3).length, { st with got_key3_vals := st.got_key3_vals ++ key3 }) := by
  rw [writeElems_eq]
  have hr := runArray_entries (key3.map elemEntry)
    (by intro e he
        obtain ⟨x, _, rfl⟩ := List.mem_map.mp he
        exact elemEntry_wf x) [] 0 st
  rw [List.append_nil, Nat.add_zero, runArray_nil 0 _ (by omega), foldl_applyElem_elems key3 h]
    at hr
  rw [hr]
  rfl

/-- C1. Round trip: for every bool `key0`, signed 64-bit `key1`, byte string
`key2` of fewer than `2 ^ 32` bytes and list `key3` of signed 64-bit integers
with `15 * |key3| < 2 ^ 32`, the parse loop run on the serialized buffer ends
at the end of the buffer with all three presence flags set, `got_key0_val =
key0`, `got_key1_val = key1`, `got_key2_val = key2`, `got_key3_vals = key3`,
and nothing printed. -/
theorem roundtrip (key0 : Bool) (key1 : Int) (key2 : List UInt8) (key3 : List Int)
    (h1 : IsInt64 key1) (h2 : key2.length < 2 ^ 32) (h3 : ∀ x ∈ key3, IsInt64 x)
    (h4 : 15 * key3.length < 2 ^ 32) :
    parse (serialize key0 key1 key2 key3)
      = ((serialize key0 key1 key2 key3).length,
         { got_key0 := true, got_key0_val := key0, got_key1 := true, got_key1_val := key1,
           got_key2 := true, got_key2_val := key2, got_key3_vals := key3, printed := [] }) := by
  rw [parse_eq_run, serialize_eq, run_encodeEntries _ (keyEntries_wf key0 key1 key2 key3 h2 h4)]
  congr 1
  simp only [keyEntries, List.foldl_cons, List.foldl_nil]
  have a0 := fun st => applyEntry_bool st (key0Entry key0) ⟨rfl, rfl, rfl⟩
  have a1 := fun st => applyEntry_int st (key1Entry key1) ⟨rfl, rfl, rfl⟩
  have a2 := fun st => applyEntry_string st (key2Entry key2) ⟨rfl, rfl⟩
  have a3 := fun st => applyEntry_array st (key3Entry key3) ⟨rfl, rfl⟩
  simp only [a0, a1, a2, a3]
  simp only [key0Entry, key1Entry, key2Entry, key3Entry, runArray_elems key3 h3]
  have hr : readInt64Be (writeInt64Be [] key1) 0 = key1 := by
    have := readInt64Be_write key1 [] h1.1 h1.2
    rwa [List.append_nil] at this
  rw [hr]
  cases key0 <;> simp

/-- The scenario of the program (lines 58-61) as an instance of `roundtrip`. -/
theorem roundtrip_witness :
    (IsInt64 123456789 ∧ key2Example.length < 2 ^ 32 ∧ (∀ x ∈ [10, 20, 30], IsInt64 x)
      ∧ 15 * [(10 : Int), 20, 30].length < 2 ^ 32)
    ∧ parse (serialize true 123456789 key2Example [10, 20, 30])
      = ((serialize true 123456789 key2Example [10, 20, 30]).length,
         { got_key0 := true, got_key0_val := true, got_key1 := true, got_key1_val := 123456789,
           got_key2 := true, got_key2_val := key2Example, got_key3_vals := [10, 20, 30],
           printed := [] }) :=
  ⟨⟨by decide, by decide, by decide, by decide⟩,
   roundtrip true 123456789 key2Example [10, 20, 30] (by decide) (by decide) (by decide)
     (by decide)⟩

/-! ## Ends of the top-level loop -/

theorem run_short (l : List UInt8) (st : ParseState) (h : l.length < 7) : run l st = (0, st) := by
  unfold run
  cases hl : l.length with
  | zero => rfl
  | succ n =>
    have h1 : ¬ 0 + 7 ≤ l.length := by omega
    rw [parseLoop_succ, if_neg h1]

theorem run_truncated (tag : Nat) (type : UInt8) (len : Nat) (part : List UInt8)
    (st : ParseState) (hlen : len < 2 ^ 32) (h : part.length < len) :
    run (header tag type len ++ part) st
      = (0, { st with printed := st.printed ++ ["truncated entry"] }) := by
  unfold run
  have hl : (header tag type len ++ part).length = (6 + part.length) + 1 := by
    rw [List.length_append, header_length]; omega
  rw [show parseLoop (header tag type len ++ part).length (header tag type len ++ part) 0 st
      = parseLoop ((6 + part.length) + 1) (header tag type len ++ part) 0 st from by rw [← hl]]
  rw [parseLoop_succ]
  have e32 : readUint32Be (header tag type len ++ part) (0 + 3) = len :=
    read_header_len _ _ _ _ hlen
  rw [e32]
  have h1 : 0 + 7 ≤ (header tag type len ++ part).length := by omega
  have h2 : 0 + 7 + len > (header tag type len ++ part).length := by omega
  rw [if_pos h1, if_pos h2]

theorem mainFrom_eq (buf : List UInt8) :
    mainFrom buf = { pos := (parse buf).1, st := (parse buf).2, exitCode := 0 } := rfl

theorem parse_encodeEntries (es : List Entry) (hwf : ∀ e ∈ es, e.WF) :
    parse (encodeEntries es) = ((encodeEntries es).length, es.foldl applyEntry {}) :=
  run_encodeEntries es hwf {}

/-- C2, as the code has it. For every buffer written by a sequence of
`writeTLTV` calls and every cut offset that keeps the header of one of its
entries but not all of its value bytes, parsing the prefix of that length
detects the truncation: it prints `truncated entry` once more than the
decoding of the entries before the cut one, stops with the cursor at the start
of the cut entry and leaves the state those earlier entries produced. The
detection is not returned to the caller: `main` returns 0. -/
theorem truncation_detected_not_returned (es1 : List Entry) (e : Entry) (es2 : List Entry)
    (cut : Nat) (hwf : ∀ x ∈ es1 ++ e :: es2, x.WF)
    (hlo : (encodeEntries es1).length + 7 ≤ cut)
    (hhi : cut < (encodeEntries es1).length + 7 + e.value.length) :
    mainFrom ((encodeEntries (es1 ++ e :: es2)).take cut)
      = { pos := (parse (encodeEntries es1)).1,
          st := { (parse (encodeEntries es1)).2 with
                  printed := (parse (encodeEntries es1)).2.printed ++ ["truncated entry"] },
          exitCode := 0 } := by
  have hwf1 : ∀ x ∈ es1, x.WF := fun x hx => hwf x (List.mem_append_left _ hx)
  have hwfe : e.WF := hwf e (List.mem_append_right _ (List.mem_cons_self _ _))
  have hmod : e.value.length % 2 ^ 32 = e.value.length := Nat.mod_eq_of_lt hwfe.2
  obtain ⟨j, hj⟩ : ∃ j, cut = (encodeEntries es1).length + (7 + j) := ⟨cut - (encodeEntries es1).length - 7, by omega⟩
  have htake : (encodeEntries (es1 ++ e :: es2)).take cut
      = encodeEntries es1 ++ (header e.tag e.type e.value.length ++ e.value.take j) := by
    rw [encodeEntries_append, encodeEntries_cons, Entry.bytes_eq, hmod, hj,
      List.take_append, List.append_assoc]
    have h7 : 7 + j = (header e.tag e.type e.value.length).length + j := by rw [header_length]
    rw [h7, List.take_append]
    rw [List.take_append_of_le_length (by omega)]
  rw [mainFrom_eq, parse_eq_run, htake, run_entries es1 hwf1,
    run_truncated _ _ _ _ _ hwfe.2 (by rw [List.length_take]; omega),
    parse_encodeEntries es1 hwf1]
  simp [shiftPos]

/-- An instance of `truncation_detected_not_returned`: the scenario's buffer cut at
offset 35, inside the value region `[30, 49)` of the string entry. -/
theorem truncation_detected_not_returned_witness :
    ((∀ x ∈ (keyEntries true 123456789 key2Example [10, 20, 30]).take 2
          ++ key2Entry key2Example
            :: (keyEntries true 123456789 key2Example [10, 20, 30]).drop 3, x.WF)
      ∧ (encodeEntries ((keyEntries true 123456789 key2Example [10, 20, 30]).take 2)).length + 7
          ≤ 35
      ∧ 35 < (encodeEntries ((keyEntries true 123456789 key2Example [10, 20, 30]).take 2)).length
          + 7 + key2Example.length)
    ∧ mainFrom ((encodeEntries ((keyEntries true 123456789 key2Example [10, 20, 30]).take 2
          ++ key2Entry key2Example
            :: (keyEntries true 123456789 key2Example [10, 20, 30]).drop 3)).take 35)
      = { pos := (parse (encodeEntries
            ((keyEntries true 123456789 key2Example [10, 20, 30]).take 2))).1,
          st := { (parse (encodeEntries
                    ((keyEntries true 123456789 key2Example [10, 20, 30]).take 2))).2 with
                  printed := (parse (encodeEntries
                    ((keyEntries true 123456789 key2Example [10, 20, 30]).take 2))).2.printed
                    ++ ["truncated entry"] },
          exitCode := 0 } :=
  ⟨⟨by decide, by decide, by decide⟩,
   truncation_detected_not_returned _ _ _ 35 (by decide) (by decide) (by decide)⟩

/-- C2, as stated, fails. The scenario's buffer cut at offset 35 lies inside
the value region `[30, 49)` of the string entry, yet the run returns 0, the
value `main` returns on the whole buffer, with a partially filled result:
`key0` and `key1` decoded, `key2` and the array missing. -/
theorem truncation_returns_success :
    (30 ≤ 35 ∧ 35 < 30 + key2Example.length)
    ∧ readUint32Be exampleBuf (23 + 3) = key2Example.length
    ∧ (mainFrom (exampleBuf.take 35)).exitCode = 0
    ∧ (mainFrom (exampleBuf.take 35)).exitCode = (mainFrom exampleBuf).exitCode
    ∧ (mainFrom (exampleBuf.take 35)).st
        = { got_key0 := true, got_key0_val := true, got_key1 := true, got_key1_val := 123456789,
            got_key2 := false, got_key2_val := [], got_key3_vals := [],
            printed := ["truncated entry"] } := by
  decide

/-! ## Entries the dispatch does not take -/

theorem applyEntry_not_recognised (st : ParseState) (e : Entry) (h : ¬ Recognised e) :
    applyEntry st e = st := by
  unfold Recognised at h
  simp only [not_or] at h
  exact applyEntry_other st e h.1 h.2.1 h.2.2.1 h.2.2.2

theorem types_ne : TYPE_BOOL ≠ TYPE_INT ∧ TYPE_BOOL ≠ TYPE_STRING ∧ TYPE_BOOL ≠ TYPE_ARRAY
    ∧ TYPE_INT ≠ TYPE_STRING ∧ TYPE_INT ≠ TYPE_ARRAY := by decide

theorem wrongSize_not_recognised (e : Entry) (h : WrongSize e) : ¬ Recognised e := by
  unfold Recognised
  unfold WrongSize at h
  rcases h with ⟨ht, hl⟩ | ⟨ht, hl⟩
  · rintro (⟨_, _, h1⟩ | ⟨_, h2, _⟩ | ⟨_, h3⟩ | ⟨_, h4⟩)
    · exact hl h1
    · rw [ht] at h2; exact types_ne.1 h2
    · rw [ht] at h3; exact types_ne.2.1 h3
    · rw [ht] at h4; exact types_ne.2.2.1 h4
  · rintro (⟨_, h1, _⟩ | ⟨_, _, h2⟩ | ⟨_, h3⟩ | ⟨_, h4⟩)
    · rw [ht] at h1; exact types_ne.1 h1.symm
    · exact hl h2
    · rw [ht] at h3; exact types_ne.2.2.2.1 h3
    · rw [ht] at h4; exact types_ne.2.2.2.2 h4

theorem reserved_not_recognised (e : Entry) (h : e.type = 0x03 ∨ 0x05 < e.type) :
    ¬ Recognised e := by
  have hne : e.type ≠ TYPE_BOOL ∧ e.type ≠ TYPE_INT ∧ e.type ≠ TYPE_STRING
      ∧ e.type ≠ TYPE_ARRAY := by
    rcases h with h | h
    · rw [h]; decide
    · refine ⟨?_, ?_, ?_, ?_⟩ <;> intro hc <;> rw [hc] at h <;> exact absurd h (by decide)
  unfold Recognised
  rintro (⟨_, h1, _⟩ | ⟨_, h2, _⟩ | ⟨_, h3⟩ | ⟨_, h4⟩)
  · exact hne.1 h1
  · exact hne.2.1 h2
  · exact hne.2.2.1 h3
  · exact hne.2.2.2 h4

theorem applyElem_wrongSize (st : ParseState) (e : Entry) (h : WrongSize e) :
    applyElem st e = st := by
  unfold applyElem
  have hc : ¬ (e.tag = ARR_ELEM_TAG ∧ e.type = TYPE_INT ∧ e.value.length = 8) := by
    rintro ⟨_, h1, h2⟩
    rcases h with ⟨ht, _⟩ | ⟨_, hl⟩
    · rw [ht] at h1; exact types_ne.1 h1
    · exact hl h2
  rw [if_neg hc]

/-- An unrecognised complete entry between complete entries and the rest of
the buffer moves the cursor by its size and changes nothing else. -/
theorem run_skip (A : List Entry) (U : Entry) (B : List UInt8) (st : ParseState)
    (hA : ∀ e ∈ A, e.WF) (hU : U.WF) (h : ¬ Recognised U) :
    run (encodeEntries A ++ (U.bytes ++ B)) st
      = shiftPos U.bytes.length (run (encodeEntries A ++ B) st) := by
  rw [run_entries A hA, run_entries A hA, run_entry U B _ hU, applyEntry_not_recognised _ _ h]
  simp only [shiftPos]
  rw [Nat.add_left_comm]

/-- C3, as the code has it. A complete entry of type `BOOL` with a declared
length other than 1, or of type `INT` with a declared length other than 8, is
never coerced into a value: the decoder skips it, at top level (between
complete entries `A` and any rest `B`) and as a nested entry of an array
region alike. The state (flags, values, elements and what was printed) is the
one obtained without the entry, decoding goes on behind it, and `main` returns
0 as it does without the entry: no format violation is reported. -/
theorem wrong_size_skipped (A : List Entry) (U : Entry) (B : List UInt8) (endp : Nat)
    (st : ParseState) (hA : ∀ e ∈ A, e.WF) (hU : U.WF) (h : WrongSize U) :
    mainFrom (encodeEntries A ++ (U.bytes ++ B))
        = { pos := U.bytes.length + (mainFrom (encodeEntries A ++ B)).pos,
            st := (mainFrom (encodeEntries A ++ B)).st,
            exitCode := (mainFrom (encodeEntries A ++ B)).exitCode }
      ∧ (mainFrom (encodeEntries A ++ (U.bytes ++ B))).exitCode = 0
      ∧ runArray (encodeEntries A ++ (U.bytes ++ B))
            ((encodeEntries A).length + (U.bytes.length + endp)) st
          = shiftPos U.bytes.length
              (runArray (encodeEntries A ++ B) ((encodeEntries A).length + endp) st) := by
  refine ⟨?_, rfl, ?_⟩
  · rw [mainFrom_eq, mainFrom_eq, parse_eq_run, parse_eq_run,
      run_skip A U B _ hA hU (wrongSize_not_recognised U h)]
    rfl
  · rw [runArray_entries A hA, runArray_entries A hA, runArray_entry U B _ _ hU,
      applyElem_wrongSize _ _ h]
    simp only [shiftPos]
    rw [Nat.add_left_comm]

/-- An instance of `wrong_size_skipped`: a `BOOL` entry of declared length 2
under tag 1, after the scenario's first entry and before its second. -/
theorem wrong_size_skipped_witness :
    ((∀ e ∈ [({ tag := TAG_KEY0, type := TYPE_BOOL, value := [0x01] } : Entry)], e.WF)
      ∧ ({ tag := TAG_KEY0, type := TYPE_BOOL, value := [0x00, 0x01] } : Entry).WF
      ∧ WrongSize { tag := TAG_KEY0, type := TYPE_BOOL, value := [0x00, 0x01] })
    ∧ (mainFrom (encodeEntries [{ tag := TAG_KEY0, type := TYPE_BOOL, value := [0x01] }]
          ++ (Entry.bytes { tag := TAG_KEY0, type := TYPE_BOOL, value := [0x00, 0x01] }
            ++ exampleBuf.drop 8))
        = { pos := (Entry.bytes { tag := TAG_KEY0, type := TYPE_BOOL, value := [0x00, 0x01] }).length
              + (mainFrom (encodeEntries [{ tag := TAG_KEY0, type := TYPE_BOOL, value := [0x01] }]
                  ++ exampleBuf.drop 8)).pos,
            st := (mainFrom (encodeEntries [{ tag := TAG_KEY0, type := TYPE_BOOL, value := [0x01] }]
                  ++ exampleBuf.drop 8)).st,
            exitCode := (mainFrom (encodeEntries
                  [{ tag := TAG_KEY0, type := TYPE_BOOL, value := [0x01] }]
                  ++ exampleBuf.drop 8)).exitCode }
      ∧ (mainFrom (encodeEntries [{ tag := TAG_KEY0, type := TYPE_BOOL, value := [0x01] }]
          ++ (Entry.bytes { tag := TAG_KEY0, type := TYPE_BOOL, value := [0x00, 0x01] }
            ++ exampleBuf.drop 8))).exitCode = 0
      ∧ runArray (encodeEntries [{ tag := TAG_KEY0, type := TYPE_BOOL, value := [0x01] }]
            ++ (Entry.bytes { tag := TAG_KEY0, type := TYPE_BOOL, value := [0x00, 0x01] }
              ++ exampleBuf.drop 8))
            ((encodeEntries [{ tag := TAG_KEY0, type := TYPE_BOOL, value := [0x01] }]).length
              + ((Entry.bytes { tag := TAG_KEY0, type := TYPE_BOOL, value := [0x00, 0x01] }).length
                + 93)) {}
          = shiftPos (Entry.bytes { tag := TAG_KEY0, type := TYPE_BOOL, value := [0x00, 0x01] }).length
              (runArray (encodeEntries [{ tag := TAG_KEY0, type := TYPE_BOOL, value := [0x01] }]
                  ++ exampleBuf.drop 8)
                ((encodeEntries [{ tag := TAG_KEY0, type := TYPE_BOOL, value := [0x01] }]).length
                  + 93) {})) :=
  ⟨⟨by decide, by decide, by decide⟩,
   wrong_size_skipped _ _ _ 93 {} (by decide) (by decide) (by decide)⟩

/-- C3, as stated, fails. A buffer holding a complete `BOOL` entry of declared
length 2 (tag 1) followed by a complete `INT` entry of declared length 4 (tag
2) and then by the scenario's entries from the second on is decoded without
any rejection: `main` returns 0, nothing is printed, and the state is the one
the same buffer without the two entries gives. -/
theorem wrong_size_not_rejected :
    WrongSize { tag := TAG_KEY0, type := TYPE_BOOL, value := [0x00, 0x01] }
    ∧ WrongSize { tag := TAG_KEY1, type := TYPE_INT, value := [0x00, 0x00, 0x00, 0x07] }
    ∧ (mainFrom (Entry.bytes { tag := TAG_KEY0, type := TYPE_BOOL, value := [0x00, 0x01] }
          ++ Entry.bytes { tag := TAG_KEY1, type := TYPE_INT, value := [0x00, 0x00, 0x00, 0x07] }
          ++ exampleBuf.drop 8)).exitCode = 0
    ∧ (mainFrom (Entry.bytes { tag := TAG_KEY0, type := TYPE_BOOL, value := [0x00, 0x01] }
          ++ Entry.bytes { tag := TAG_KEY1, type := TYPE_INT, value := [0x00, 0x00, 0x00, 0x07] }
          ++ exampleBuf.drop 8)).st
        = (mainFrom (exampleBuf.drop 8)).st
    ∧ (mainFrom (exampleBuf.drop 8)).st
        = { got_key0 := false, got_key0_val := false, got_key1 := true,
            got_key1_val := 123456789, got_key2 := true, got_key2_val := key2Example,
            got_key3_vals := [10, 20, 30], printed := [] } := by
  decide

/-- C4. Forward compatibility: for complete entries `A`, any bytes `B` and a
complete entry `U` that none of the four branches of the dispatch takes (in
particular one whose type code is the reserved `0x03` or lies above `0x05`),
decoding `A ++ U ++ B` leaves exactly the state of decoding `A ++ B`: the same
presence flags, scalar values and array elements, and nothing more printed;
only the cursor at loop exit differs, by the size of `U`. -/
theorem forward_compatibility (A : List Entry) (U : Entry) (B : List UInt8)
    (hA : ∀ e ∈ A, e.WF) (hU : U.WF)
    (h : ¬ Recognised U ∨ U.type = 0x03 ∨ 0x05 < U.type) :
    (parse (encodeEntries A ++ (U.bytes ++ B))).2 = (parse (encodeEntries A ++ B)).2
      ∧ (parse (encodeEntries A ++ (U.bytes ++ B))).1
          = U.bytes.length + (parse (encodeEntries A ++ B)).1 := by
  have h' : ¬ Recognised U := by
    rcases h with h | h
    · exact h
    · exact reserved_not_recognised U h
  rw [parse_eq_run, parse_eq_run, run_skip A U B _ hA hU h']
  exact ⟨rfl, rfl⟩

/-- An instance of `forward_compatibility`: an entry of the reserved type
`0x03` under tag 1 between the first entry of the scenario and the others. -/
theorem forward_compatibility_witness :
    ((∀ e ∈ [({ tag := TAG_KEY0, type := TYPE_BOOL, value := [0x01] } : Entry)], e.WF)
      ∧ ({ tag := TAG_KEY0, type := 0x03, value := [0x09] } : Entry).WF
      ∧ (¬ Recognised { tag := TAG_KEY0, type := 0x03, value := [0x09] }
          ∨ ({ tag := TAG_KEY0, type := 0x03, value := [0x09] } : Entry).type = 0x03
          ∨ 0x05 < ({ tag := TAG_KEY0, type := 0x03, value := [0x09] } : Entry).type))
    ∧ ((parse (encodeEntries [{ tag := TAG_KEY0, type := TYPE_BOOL, value := [0x01] }]
          ++ (Entry.bytes { tag := TAG_KEY0, type := 0x03, value := [0x09] }
            ++ exampleBuf.drop 8))).2
        = (parse (encodeEntries [{ tag := TAG_KEY0, type := TYPE_BOOL, value := [0x01] }]
          ++ exampleBuf.drop 8)).2
      ∧ (parse (encodeEntries [{ tag := TAG_KEY0, type := TYPE_BOOL, value := [0x01] }]
          ++ (Entry.bytes { tag := TAG_KEY0, type := 0x03, value := [0x09] }
            ++ exampleBuf.drop 8))).1
        = (Entry.bytes { tag := TAG_KEY0, type := 0x03, value := [0x09] }).length
          + (parse (encodeEntries [{ tag := TAG_KEY0, type := TYPE_BOOL, value := [0x01] }]
              ++ exampleBuf.drop 8)).1) :=
  ⟨⟨by decide, by decide, by decide⟩,
   forward_compatibility _ _ _ (by decide) (by decide) (by decide)⟩

/-! ## The encoder's layout -/

theorem ofNat_eq_of_mod (a b : Nat) (h : a % 256 = b % 256) : UInt8.ofNat a = UInt8.ofNat b := by
  apply UInt8.ext
  rw [byte_toNat, byte_toNat, h]

theorem length_field_at (es1 : List Entry) (e : Entry) (rest : List UInt8) (he : e.WF) :
    readUint32Be (encodeEntries es1 ++ (e.bytes ++ rest)) ((encodeEntries es1).length + 3)
      = e.value.length := by
  rw [readUint32Be_shift, Entry.bytes_eq, Nat.mod_eq_of_lt he.2, List.append_assoc]
  exact read_header_len _ _ _ _ he.2

theorem encodeEntries_take_elems (key3 : List Int) (i : Nat) (hi : i < key3.length) :
    encodeEntries (key3.map elemEntry)
      = encodeEntries ((key3.take i).map elemEntry)
          ++ ((elemEntry (key3.getD i 0)).bytes ++ encodeEntries ((key3.drop (i + 1)).map elemEntry)) := by
  have hsplit : key3 = key3.take i ++ key3.getD i 0 :: key3.drop (i + 1) := by
    rw [List.getD_eq_getElem _ _ hi, ← List.drop_eq_getElem_cons hi, List.take_append_drop]
  conv_lhs => rw [hsplit]
  rw [List.map_append, List.map_cons, encodeEntries_append, encodeEntries_cons]

/-- C5. Length invariant of the encoder: for a value of fewer than `2 ^ 32`
bytes the length field `writeTLTV` writes reads back as the number of value
bytes, and exactly those bytes follow the header up to the end of the buffer.
In the serialized buffer the `BOOL` entry (at offset 0) declares length 1, the
`INT` entry (at 8) declares 8, the `STRING` entry (at 23) declares `|key2|`,
the `ARRAY` entry (at `30 + |key2|`) declares `15 * |key3|`, which is the size
of the nested entries and brings the value region to the end of the buffer,
and the nested entry of each element `i` (at `37 + |key2| + 15 * i`) declares
8 and is followed by the 8 bytes of the element. -/
theorem length_invariant (buf : List UInt8) (tag : Nat) (type : UInt8) (value : List UInt8)
    (key0 : Bool) (key1 : Int) (key2 : List UInt8) (key3 : List Int)
    (hv : value.length < 2 ^ 32) (h2 : key2.length < 2 ^ 32) (h3 : 15 * key3.length < 2 ^ 32) :
    (readUint32Be (writeTLTV buf tag type value) (buf.length + 3) = value.length
      ∧ (writeTLTV buf tag type value).drop (buf.length + 7) = value)
    ∧ readUint32Be (serialize key0 key1 key2 key3) (0 + 3) = 1
    ∧ readUint32Be (serialize key0 key1 key2 key3) (8 + 3) = 8
    ∧ readUint32Be (serialize key0 key1 key2 key3) (23 + 3) = key2.length
    ∧ readUint32Be (serialize key0 key1 key2 key3) (30 + key2.length + 3) = 15 * key3.length
    ∧ (serialize key0 key1 key2 key3).drop (30 + key2.length + 7) = writeElems key3
    ∧ (writeElems key3).length = 15 * key3.length
    ∧ ∀ i, i < key3.length →
        readUint32Be (serialize key0 key1 key2 key3) (37 + key2.length + 15 * i + 3) = 8
        ∧ ((serialize key0 key1 key2 key3).drop (37 + key2.length + 15 * i + 7)).take 8
            = writeInt64Be [] (key3.getD i 0) := by
  have hwf := keyEntries_wf key0 key1 key2 key3 h2 h3
  have hw0 : (key0Entry key0).WF := hwf _ (by simp [keyEntries])
  have hw1 : (key1Entry key1).WF := hwf _ (by simp [keyEntries])
  have hw2 : (key2Entry key2).WF := hwf _ (by simp [keyEntries])
  have hw3 : (key3Entry key3).WF := hwf _ (by simp [keyEntries])
  have hs : serialize key0 key1 key2 key3
      = encodeEntries [] ++ ((key0Entry key0).bytes
          ++ encodeEntries [key1Entry key1, key2Entry key2, key3Entry key3]) := by
    rw [serialize_eq, keyEntries, encodeEntries_cons, encodeEntries_nil, List.nil_append]
  have hs1 : serialize key0 key1 key2 key3
      = encodeEntries [key0Entry key0] ++ ((key1Entry key1).bytes
          ++ encodeEntries [key2Entry key2, key3Entry key3]) := by
    rw [serialize_eq, keyEntries]
    simp only [encodeEntries_cons, encodeEntries_nil, List.append_assoc, List.append_nil]
  have hs2 : serialize key0 key1 key2 key3
      = encodeEntries [key0Entry key0, key1Entry key1] ++ ((key2Entry key2).bytes
          ++ encodeEntries [key3Entry key3]) := by
    rw [serialize_eq, keyEntries]
    simp only [encodeEntries_cons, encodeEntries_nil, List.append_assoc, List.append_nil]
  have hs3 : serialize key0 key1 key2 key3
      = encodeEntries [key0Entry key0, key1Entry key1, key2Entry key2]
          ++ ((key3Entry key3).bytes ++ []) := by
    rw [serialize_eq, keyEntries]
    simp only [encodeEntries_cons, encodeEntries_nil, List.append_assoc, List.append_nil]
  have hl1 : (encodeEntries [key0Entry key0]).length = 8 := by
    simp [encodeEntries_cons, encodeEntries_nil, Entry.bytes_length, key0Entry]
  have hl2 : (encodeEntries [key0Entry key0, key1Entry key1]).length = 23 := by
    simp [encodeEntries_cons, encodeEntries_nil, Entry.bytes_length, key0Entry, key1Entry,
      writeInt64Be_length]
  have hl3 : (encodeEntries [key0Entry key0, key1Entry key1, key2Entry key2]).length
      = 30 + key2.length := by
    simp only [encodeEntries_cons, encodeEntries_nil, Entry.bytes_length, key0Entry, key1Entry,
      key2Entry, writeInt64Be_length, List.length_append, List.length_cons, List.length_nil]
    omega
  have hv3 : (key3Entry key3).value = writeElems key3 := rfl
  have hv2 : (key2Entry key2).value = key2 := rfl
  have hdrop : (serialize key0 key1 key2 key3).drop (30 + key2.length + 7) = writeElems key3 := by
    rw [hs3, List.append_nil, Entry.bytes_eq, ← List.append_assoc, hv3]
    apply List.drop_left'
    rw [List.length_append, hl3, header_length]
  refine ⟨⟨?_, ?_⟩, ?_, ?_, ?_, ?_, hdrop, writeElems_length key3, ?_⟩
  · rw [writeTLTV_eq, readUint32Be_shift, Nat.mod_eq_of_lt hv]
    exact read_header_len _ _ _ _ hv
  · rw [writeTLTV_eq, ← List.append_assoc]
    apply List.drop_left'
    rw [List.length_append, header_length]
  · have := length_field_at [] _
      (encodeEntries [key1Entry key1, key2Entry key2, key3Entry key3]) hw0
    rw [← hs] at this
    exact this
  · have := length_field_at [key0Entry key0] _ (encodeEntries [key2Entry key2, key3Entry key3])
      hw1
    rw [← hs1, hl1] at this
    exact this
  · have := length_field_at [key0Entry key0, key1Entry key1] _ (encodeEntries [key3Entry key3])
      hw2
    rw [← hs2, hl2] at this
    exact this
  · have := length_field_at [key0Entry key0, key1Entry key1, key2Entry key2] _ [] hw3
    rw [← hs3, hl3] at this
    rw [this]
    exact writeElems_length key3
  · intro i hi
    have hsp : serialize key0 key1 key2 key3
        = (serialize key0 key1 key2 key3).take (30 + key2.length + 7) ++ writeElems key3 := by
      conv_lhs => rw [← List.take_append_drop (30 + key2.length + 7) (serialize key0 key1 key2 key3)]
      rw [hdrop]
    have hlen : (serialize key0 key1 key2 key3).length = 37 + key2.length + 15 * key3.length := by
      rw [hs3, List.append_nil, List.length_append, hl3, Entry.bytes_length, hv3,
        writeElems_length]
      omega
    have hpl : ((serialize key0 key1 key2 key3).take (30 + key2.length + 7)).length
        = 37 + key2.length := by
      rw [List.length_take, hlen]; omega
    have hel := encodeEntries_take_elems key3 i hi
    have hil : (encodeEntries ((key3.take i).map elemEntry)).length = 15 * i := by
      rw [encodeEntries_elems_length, List.length_take, Nat.min_eq_left (by omega)]
    constructor
    · rw [hsp, show 37 + key2.length + 15 * i + 3
          = ((serialize key0 key1 key2 key3).take (30 + key2.length + 7)).length + (15 * i + 3)
          from by rw [hpl]; omega]
      rw [readUint32Be_shift, writeElems_eq, hel, ← hil]
      rw [length_field_at _ _ _ (elemEntry_wf _)]
      rfl
    · rw [hsp, show 37 + key2.length + 15 * i + 7
          = ((serialize key0 key1 key2 key3).take (30 + key2.length + 7)).length + (15 * i + 7)
          from by rw [hpl]; omega]
      rw [List.drop_append, writeElems_eq, hel, ← hil, List.drop_append, Entry.bytes_eq]
      have h7 : 7 = (header (elemEntry (key3.getD i 0)).tag (elemEntry (key3.getD i 0)).type
          ((elemEntry (key3.getD i 0)).value.length % 2 ^ 32)).length := rfl
      rw [List.append_assoc]
      conv_lhs => rw [h7]
      rw [List.drop_left]
      exact List.take_left' rfl

/-- The scenario of the program (lines 58-61) as an instance of
`length_invariant`, with the first entry as the `writeTLTV` call. -/
theorem length_invariant_witness :
    (([0x01] : List UInt8).length < 2 ^ 32 ∧ key2Example.length < 2 ^ 32
      ∧ 15 * [(10 : Int), 20, 30].length < 2 ^ 32)
    ∧ (readUint32Be (writeTLTV [] TAG_KEY0 TYPE_BOOL [0x01]) (([] : List UInt8).length + 3)
          = ([0x01] : List UInt8).length
      ∧ readUint32Be exampleBuf (30 + key2Example.length + 3) = 15 * [(10 : Int), 20, 30].length) :=
  ⟨⟨by decide, by decide, by decide⟩,
   (length_invariant [] TAG_KEY0 TYPE_BOOL [0x01] true 123456789 key2Example [10, 20, 30]
      (by decide) (by decide) (by decide)).1.1,
   (length_invariant [] TAG_KEY0 TYPE_BOOL [0x01] true 123456789 key2Example [10, 20, 30]
      (by decide) (by decide) (by decide)).2.2.2.2.1⟩

/-- C6. Wire layout: for every tag, type byte, value of fewer than `2 ^ 32`
bytes and prior buffer, `writeTLTV` keeps the buffer and appends the high byte
of the tag, its low byte, the type byte, the four bytes of the size of the
value from the most significant to the least, and then the value bytes, and
nothing else: `7 + |value|` bytes in all. -/
theorem wire_layout (buf : List UInt8) (tag : Nat) (type : UInt8) (value : List UInt8)
    (hv : value.length < 2 ^ 32) :
    writeTLTV buf tag type value
        = buf ++ [UInt8.ofNat (tag / 2 ^ 8), UInt8.ofNat tag, type,
                  UInt8.ofNat (value.length / 2 ^ 24), UInt8.ofNat (value.length / 2 ^ 16),
                  UInt8.ofNat (value.length / 2 ^ 8), UInt8.ofNat value.length] ++ value
      ∧ (writeTLTV buf tag type value).length = buf.length + (7 + value.length)
      ∧ (writeTLTV buf tag type value).take buf.length = buf := by
  have hb : writeTLTV buf tag type value
      = buf ++ [UInt8.ofNat (tag / 2 ^ 8), UInt8.ofNat tag, type,
                UInt8.ofNat (value.length / 2 ^ 24), UInt8.ofNat (value.length / 2 ^ 16),
                UInt8.ofNat (value.length / 2 ^ 8), UInt8.ofNat value.length] ++ value := by
    rw [writeTLTV_eq, Nat.mod_eq_of_lt hv, List.append_assoc]
    congr 2
    simp only [header, and_ff, Nat.shiftRight_eq_div_pow]
    congr 1
    · exact ofNat_eq_of_mod _ _ (Nat.mod_mod _ _)
    congr 1
    · exact ofNat_eq_of_mod _ _ (Nat.mod_mod _ _)
    congr 2
    · exact ofNat_eq_of_mod _ _ (Nat.mod_mod _ _)
    congr 1
    · exact ofNat_eq_of_mod _ _ (Nat.mod_mod _ _)
    congr 1
    · exact ofNat_eq_of_mod _ _ (Nat.mod_mod _ _)
    congr 1
    exact ofNat_eq_of_mod _ _ (Nat.mod_mod _ _)
  refine ⟨hb, ?_, ?_⟩
  · rw [hb]; simp only [List.length_append, List.length_cons, List.length_nil]; omega
  · rw [hb, List.append_assoc]; exact List.take_left' rfl

/-- The string entry of the scenario (line 90) as an instance of `wire_layout`;
the buffer then holds the first two entries. -/
theorem wire_layout_witness :
    key2Example.length < 2 ^ 32
    ∧ writeTLTV (exampleBuf.take 23) TAG_KEY2 TYPE_STRING key2Example
        = exampleBuf.take 23 ++ [0x00, 0x03, 0x04, 0x00, 0x00, 0x00, 0x13] ++ key2Example :=
  ⟨by decide, (wire_layout (exampleBuf.take 23) TAG_KEY2 TYPE_STRING key2Example (by decide)).1⟩

/-! ## Leftover bytes and the empty buffer -/

/-- C7, as the code has it. For every buffer made of complete entries
followed by `k` leftover bytes, `1 ≤ k ≤ 6`, the loop guard `pos + 7 <=
buf.size()` ends the loop at the start of the leftover bytes and they are
ignored: the state, what was printed and the value `main` returns (0) are
those of the buffer without them, and the cursor stops at their start. No
truncation is reported. -/
theorem dangling_header_ignored (es : List Entry) (l : List UInt8) (hwf : ∀ e ∈ es, e.WF)
    (hk : 1 ≤ l.length ∧ l.length ≤ 6) :
    mainFrom (encodeEntries es ++ l) = mainFrom (encodeEntries es)
      ∧ (mainFrom (encodeEntries es ++ l)).pos = (encodeEntries es).length
      ∧ (mainFrom (encodeEntries es ++ l)).exitCode = 0 := by
  have h : mainFrom (encodeEntries es ++ l) = mainFrom (encodeEntries es) := by
    rw [mainFrom_eq, mainFrom_eq, parse_eq_run, parse_eq_run, run_entries es hwf,
      run_short l _ (by omega), run_encodeEntries es hwf]
    rfl
  refine ⟨h, ?_, rfl⟩
  rw [h, mainFrom_eq, parse_encodeEntries es hwf]

/-- An instance of `dangling_header_ignored`: the four entries of the scenario
followed by three bytes. -/
theorem dangling_header_ignored_witness :
    ((∀ e ∈ keyEntries true 123456789 key2Example [10, 20, 30], e.WF)
      ∧ 1 ≤ ([0x00, 0x04, 0x05] : List UInt8).length
      ∧ ([0x00, 0x04, 0x05] : List UInt8).length ≤ 6)
    ∧ mainFrom (encodeEntries (keyEntries true 123456789 key2Example [10, 20, 30])
          ++ [0x00, 0x04, 0x05])
        = mainFrom (encodeEntries (keyEntries true 123456789 key2Example [10, 20, 30])) :=
  ⟨⟨by decide, by decide, by decide⟩,
   (dangling_header_ignored (keyEntries true 123456789 key2Example [10, 20, 30])
      [0x00, 0x04, 0x05] (by decide) ⟨by decide, by decide⟩).1⟩

/-- C7, as stated, fails. The scenario's buffer followed by the three bytes
`00 04 05` (the start of a header) is decoded exactly as the buffer alone is:
`main` returns 0, nothing is printed, the cursor stops at 101 of 104 bytes. -/
theorem dangling_header_not_reported :
    (exampleBuf ++ [0x00, 0x04, 0x05]).length = 104
    ∧ mainFrom (exampleBuf ++ [0x00, 0x04, 0x05])
        = { pos := 101,
            st := { got_key0 := true, got_key0_val := true, got_key1 := true,
                    got_key1_val := 123456789, got_key2 := true, got_key2_val := key2Example,
                    got_key3_vals := [10, 20, 30], printed := [] },
            exitCode := 0 }
    ∧ mainFrom exampleBuf
        = { pos := 101,
            st := { got_key0 := true, got_key0_val := true, got_key1 := true,
                    got_key1_val := 123456789, got_key2 := true, got_key2_val := key2Example,
                    got_key3_vals := [10, 20, 30], printed := [] },
            exitCode := 0 } :=
  ⟨rfl, rfl, rfl⟩

/-- C10. Empty buffer: whatever the fuel, the loop on the empty buffer returns
at its first guard test; decoding it leaves the initial state, with the three
presence flags false, no array element and nothing printed, the cursor at 0,
and `main` returns 0. -/
theorem empty_buffer :
    (∀ fuel : Nat, parseLoop fuel [] 0 {} = (0, {}))
    ∧ parse [] = (0, { got_key0 := false, got_key0_val := false, got_key1 := false,
                       got_key1_val := 0, got_key2 := false, got_key2_val := [],
                       got_key3_vals := [], printed := [] })
    ∧ mainFrom [] = { pos := 0, st := {}, exitCode := 0 } := by
  refine ⟨?_, rfl, rfl⟩
  intro fuel
  cases fuel with
  | zero => rfl
  | succ n => rfl

/-! ## Duplicate tags -/

/-- The inner loop only appends to the element list and to what is printed. -/
theorem arrayLoop_acc (buf : List UInt8) (endp fuel : Nat) :
    ∀ (ip : Nat) (st : ParseState),
      arrayLoop fuel buf endp ip st
        = ((arrayLoop fuel buf endp ip {}).1,
           { st with
             got_key3_vals := st.got_key3_vals ++ (arrayLoop fuel buf endp ip {}).2.got_key3_vals,
             printed := st.printed ++ (arrayLoop fuel buf endp ip {}).2.printed }) := by
  induction fuel with
  | zero => intro ip st; simp [arrayLoop_zero]
  | succ n ih =>
    intro ip st
    simp only [arrayLoop_succ]
    by_cases h1 : ip + 7 ≤ endp
    · by_cases h2 : ip + 7 + readUint32Be buf (ip + 3) > endp
      · simp [h1, h2]
      · simp only [h1, h2, if_true, if_false]
        by_cases h3 : readUint16Be buf ip = ARR_ELEM_TAG ∧ buf.getD (ip + 2) 0 = TYPE_INT
            ∧ readUint32Be buf (ip + 3) = 8
        · simp only [h3, and_self, if_true]
          rw [ih _ { st with got_key3_vals := st.got_key3_vals ++ [readInt64Be buf (ip + 7)] }]
          conv_rhs => rw [ih _ { got_key3_vals := [] ++ [readInt64Be buf (ip + 7)] }]
          simp
        · simp only [h3, if_false]
          exact ih _ _
    · simp [h1]

theorem applyEntry_array_acc (st : ParseState) (e : Entry) (h : IsKey3 e) :
    applyEntry st e
      = { st with
          got_key3_vals := st.got_key3_vals ++ arrayElems e.value,
          printed := st.printed ++ (runArray e.value e.value.length {}).2.printed } := by
  rw [applyEntry_array st e h]
  unfold runArray arrayElems runArray
  rw [arrayLoop_acc]

theorem lastMatch_concat (p : Entry → Prop) [DecidablePred p] (es : List Entry) (e : Entry) :
    lastMatch p (es ++ [e]) = if p e then some e else lastMatch p es := by
  unfold lastMatch
  rw [List.filter_append]
  by_cases h : p e
  · simp [h]
  · simp [h]

theorem isKey_exclusive (e : Entry) :
    (IsKey0 e → ¬ IsKey1 e ∧ ¬ IsKey2 e ∧ ¬ IsKey3 e)
      ∧ (IsKey1 e → ¬ IsKey0 e ∧ ¬ IsKey2 e ∧ ¬ IsKey3 e)
      ∧ (IsKey2 e → ¬ IsKey0 e ∧ ¬ IsKey1 e ∧ ¬ IsKey3 e)
      ∧ (IsKey3 e → ¬ IsKey0 e ∧ ¬ IsKey1 e ∧ ¬ IsKey2 e) := by
  unfold IsKey0 IsKey1 IsKey2 IsKey3
  have ht := tags_ne
  refine ⟨?_, ?_, ?_, ?_⟩ <;> intro h <;> refine ⟨?_, ?_, ?_⟩ <;> intro h' <;>
    have := h.1.symm.trans h'.1 <;> simp_all

/-- The state after a sequence of entries, field by field: the scalars come
from the last entry their branch takes, the elements from every array entry. -/
theorem foldl_applyEntry_fields (es : List Entry) :
    let st := es.foldl applyEntry {}
    st.got_key0 = (lastMatch IsKey0 es).isSome
      ∧ st.got_key0_val
          = ((lastMatch IsKey0 es).map (fun e => e.value.getD 0 0 != 0x00)).getD false
      ∧ st.got_key1 = (lastMatch IsKey1 es).isSome
      ∧ st.got_key1_val = ((lastMatch IsKey1 es).map (fun e => readInt64Be e.value 0)).getD 0
      ∧ st.got_key2 = (lastMatch IsKey2 es).isSome
      ∧ st.got_key2_val = ((lastMatch IsKey2 es).map (fun e => e.value)).getD []
      ∧ st.got_key3_vals
          = (es.filter (fun e => decide (IsKey3 e))).flatMap (fun e => arrayElems e.value) := by
  induction es using List.reverseRecOn with
  | nil => exact ⟨rfl, rfl, rfl, rfl, rfl, rfl, rfl⟩
  | append_singleton es e ih =>
    obtain ⟨i0, i0v, i1, i1v, i2, i2v, i3⟩ := ih
    have hx := isKey_exclusive e
    simp only [List.foldl_append, List.foldl_cons, List.foldl_nil, lastMatch_concat,
      List.filter_append, List.flatMap_append]
    by_cases h0 : IsKey0 e
    · obtain ⟨n1, n2, n3⟩ := hx.1 h0
      rw [applyEntry_bool _ _ h0]
      simp [h0, n1, n2, n3, i1, i1v, i2, i2v, i3]
    · by_cases h1 : IsKey1 e
      · obtain ⟨_, n2, n3⟩ := hx.2.1 h1
        rw [applyEntry_int _ _ h1]
        simp [h0, h1, n2, n3, i0, i0v, i2, i2v, i3]
      · by_cases h2 : IsKey2 e
        · obtain ⟨_, _, n3⟩ := hx.2.2.1 h2
          rw [applyEntry_string _ _ h2]
          simp [h0, h1, h2, n3, i0, i0v, i1, i1v, i3]
        · by_cases h3 : IsKey3 e
          · rw [applyEntry_array_acc _ _ h3]
            simp [h0, h1, h2, h3, i0, i0v, i1, i1v, i2, i2v, i3]
          · rw [applyEntry_other _ _ h0 h1 h2 h3]
            simp [h0, h1, h2, h3, i0, i0v, i1, i1v, i2, i2v, i3]

/-- C9. Duplicate-tag policy: for every buffer made of complete entries, each
scalar key is decoded from the last entry, in buffer order, that its branch of
the dispatch takes (tag 1 `BOOL` of length 1, tag 2 `INT` of length 8, tag 3
`STRING`), its presence flag telling whether there is one, and the decoded
array is the concatenation, in buffer order, of the elements the inner loop
accepts from every tag 4 `ARRAY` entry, so a later array entry appends to the
elements of an earlier one. -/
theorem duplicate_tag_policy (es : List Entry) (hwf : ∀ e ∈ es, e.WF) :
    ((parse (encodeEntries es)).2.got_key0 = (lastMatch IsKey0 es).isSome
      ∧ (parse (encodeEntries es)).2.got_key0_val
          = ((lastMatch IsKey0 es).map (fun e => e.value.getD 0 0 != 0x00)).getD false)
    ∧ ((parse (encodeEntries es)).2.got_key1 = (lastMatch IsKey1 es).isSome
      ∧ (parse (encodeEntries es)).2.got_key1_val
          = ((lastMatch IsKey1 es).map (fun e => readInt64Be e.value 0)).getD 0)
    ∧ ((parse (encodeEntries es)).2.got_key2 = (lastMatch IsKey2 es).isSome
      ∧ (parse (encodeEntries es)).2.got_key2_val
          = ((lastMatch IsKey2 es).map (fun e => e.value)).getD [])
    ∧ (parse (encodeEntries es)).2.got_key3_vals
        = (es.filter (fun e => decide (IsKey3 e))).flatMap (fun e => arrayElems e.value) := by
  rw [parse_encodeEntries es hwf]
  obtain ⟨i0, i0v, i1, i1v, i2, i2v, i3⟩ := foldl_applyEntry_fields es
  exact ⟨⟨i0, i0v⟩, ⟨i1, i1v⟩, ⟨i2, i2v⟩, i3⟩

/-! ## Nothing behind a detected truncation is read -/

theorem arrayLoop_mono (buf : List UInt8) (endp fuel : Nat) :
    ∀ (ip : Nat) (st : ParseState), ip ≤ (arrayLoop fuel buf endp ip st).1 := by
  induction fuel with
  | zero => intro ip st; exact Nat.le_refl _
  | succ n ih =>
    intro ip st
    rw [arrayLoop_succ]
    by_cases h1 : ip + 7 ≤ endp
    · by_cases h2 : ip + 7 + readUint32Be buf (ip + 3) > endp
      · rw [if_pos h1, if_pos h2]
      · rw [if_pos h1, if_neg h2]
        exact Nat.le_trans (by omega) (ih _ _)
    · rw [if_neg h1]

theorem parseLoop_mono (buf : List UInt8) (fuel : Nat) :
    ∀ (pos : Nat) (st : ParseState), pos ≤ (parseLoop fuel buf pos st).1 := by
  induction fuel with
  | zero => intro pos st; exact Nat.le_refl _
  | succ n ih =>
    intro pos st
    rw [parseLoop_succ]
    by_cases h1 : pos + 7 ≤ buf.length
    · by_cases h2 : pos + 7 + readUint32Be buf (pos + 3) > buf.length
      · rw [if_pos h1, if_pos h2]
      · rw [if_pos h1, if_neg h2]
        exact Nat.le_trans (by omega) (ih _ _)
    · rw [if_neg h1]

/-- The inner loop reads no byte beyond the header it stops at. -/
theorem arrayLoop_agree (l post post' : List UInt8) (endp fuel : Nat) :
    ∀ (ip : Nat) (st : ParseState),
      (arrayLoop fuel (l ++ post) endp ip st).1 + 7 ≤ l.length →
      arrayLoop fuel (l ++ post') endp ip st = arrayLoop fuel (l ++ post) endp ip st := by
  induction fuel with
  | zero => intro ip st _; rfl
  | succ n ih =>
    intro ip st h
    have hm := arrayLoop_mono (l ++ post) endp (n + 1) ip st
    have hip : ip + 7 ≤ l.length := by omega
    clear hm
    rw [arrayLoop_succ] at h
    rw [arrayLoop_succ, arrayLoop_succ]
    by_cases h1 : ip + 7 ≤ endp
    · have e16 := readUint16Be_front l post ip (by omega)
      have e8 := getD_front l post (ip + 2) (by omega)
      have e32 := readUint32Be_front l post (ip + 3) (by omega)
      have e16' := readUint16Be_front l post' ip (by omega)
      have e8' := getD_front l post' (ip + 2) (by omega)
      have e32' := readUint32Be_front l post' (ip + 3) (by omega)
      rw [if_pos h1] at h
      rw [if_pos h1, if_pos h1, e16, e8, e32, e16', e8', e32']
      rw [e32] at h
      by_cases h2 : ip + 7 + readUint32Be l (ip + 3) > endp
      · rw [if_pos h2, if_pos h2]
      · rw [if_neg h2] at h
        rw [if_neg h2, if_neg h2]
        have hm' := arrayLoop_mono (l ++ post) endp n (ip + 7 + readUint32Be l (ip + 3))
          (if readUint16Be (l ++ post) ip = ARR_ELEM_TAG ∧ (l ++ post).getD (ip + 2) 0 = TYPE_INT
              ∧ readUint32Be l (ip + 3) = 8 then
            { st with got_key3_vals := st.got_key3_vals ++ [readInt64Be (l ++ post) (ip + 7)] }
          else st)
        by_cases h3 : readUint32Be l (ip + 3) = 8
        · have e64 := readInt64Be_front l post (ip + 7) (by omega)
          have e64' := readInt64Be_front l post' (ip + 7) (by omega)
          rw [e64, e64']
          rw [e16, e8, e64] at h
          exact ih _ _ h
        · have hc : ∀ x y : ParseState,
              (if readUint16Be l ip = ARR_ELEM_TAG ∧ l.getD (ip + 2) 0 = TYPE_INT
                  ∧ readUint32Be l (ip + 3) = 8 then x else y) = y := by
            intro x y; rw [if_neg (fun hc => h3 hc.2.2)]
          rw [hc, hc]
          rw [e16, e8, hc] at h
          exact ih _ _ h
    · rw [if_neg h1, if_neg h1]

theorem parseEntry_agree (l post post' : List UInt8) (tag : Nat) (type : UInt8)
    (length valuePos : Nat) (st : ParseState) (h : valuePos + length ≤ l.length) :
    parseEntry (l ++ post') tag type length valuePos st
      = parseEntry (l ++ post) tag type length valuePos st := by
  rw [parseEntry_front _ _ _ _ _ _ _ h, parseEntry_front _ _ _ _ _ _ _ h]

/-- The top-level loop reads no byte beyond the header it stops at. -/
theorem parseLoop_agree (l post post' : List UInt8) (hlen : post'.length = post.length)
    (fuel : Nat) :
    ∀ (pos : Nat) (st : ParseState),
      (parseLoop fuel (l ++ post) pos st).1 + 7 ≤ l.length →
      parseLoop fuel (l ++ post') pos st = parseLoop fuel (l ++ post) pos st := by
  have hL : (l ++ post').length = (l ++ post).length := by
    rw [List.length_append, List.length_append, hlen]
  induction fuel with
  | zero => intro pos st _; rfl
  | succ n ih =>
    intro pos st h
    have hm := parseLoop_mono (l ++ post) (n + 1) pos st
    have hip : pos + 7 ≤ l.length := by omega
    clear hm
    rw [parseLoop_succ] at h
    rw [parseLoop_succ, parseLoop_succ, hL]
    by_cases h1 : pos + 7 ≤ (l ++ post).length
    · have e16 := readUint16Be_front l post pos (by omega)
      have e8 := getD_front l post (pos + 2) (by omega)
      have e32 := readUint32Be_front l post (pos + 3) (by omega)
      have e16' := readUint16Be_front l post' pos (by omega)
      have e8' := getD_front l post' (pos + 2) (by omega)
      have e32' := readUint32Be_front l post' (pos + 3) (by omega)
      rw [if_pos h1] at h
      rw [if_pos h1, if_pos h1, e16, e8, e32, e16', e8', e32']
      rw [e16, e8, e32] at h
      by_cases h2 : pos + 7 + readUint32Be l (pos + 3) > (l ++ post).length
      · rw [if_pos h2, if_pos h2]
      · rw [if_neg h2] at h
        rw [if_neg h2, if_neg h2]
        have hm' := parseLoop_mono (l ++ post) n (pos + 7 + readUint32Be l (pos + 3))
          (parseEntry (l ++ post) (readUint16Be l pos) (l.getD (pos + 2) 0)
            (readUint32Be l (pos + 3)) (pos + 7) st)
        rw [parseEntry_agree l post post' _ _ _ _ _ (by omega)]
        exact ih _ _ h
    · rw [if_neg h1, if_neg h1]

theorem split_take (buf buf' : List UInt8) (n : Nat) (hn : n ≤ buf.length)
    (h : buf'.take n = buf.take n) :
    buf = buf.take n ++ buf.drop n ∧ buf' = buf.take n ++ buf'.drop n
      ∧ (buf.take n).length = n := by
  refine ⟨(List.take_append_drop n buf).symm, ?_, ?_⟩
  · rw [← h]; exact (List.take_append_drop n buf').symm
  · rw [List.length_take]; omega

/-- C8, as the code has it. A truncation stops the loop that detects it, and
only that loop. (1) When the top-level loop stops on a truncated entry (its
cursor is left with a whole header in the buffer), no byte behind that header
contributes: every buffer of the same size with the same bytes up to the end
of that header is decoded to the same result. (2) When the inner loop stops on
a truncated nested entry, no byte behind the header of that nested entry
contributes to what the inner loop returns. (3) The top-level loop goes on
behind an array entry whatever its nested entries are: the entries that follow
the array entry are decoded from the state the array entry left. -/
theorem truncation_stops_its_loop (buf buf' : List UInt8) (endp ip fuel : Nat)
    (st : ParseState) (e : Entry) (rest : List UInt8) :
    ((parse buf).1 + 7 ≤ buf.length → buf'.length = buf.length →
        buf'.take ((parse buf).1 + 7) = buf.take ((parse buf).1 + 7) →
        parse buf' = parse buf)
    ∧ (endp ≤ buf.length → (arrayLoop fuel buf endp ip st).1 + 7 ≤ endp →
        buf'.take ((arrayLoop fuel buf endp ip st).1 + 7)
          = buf.take ((arrayLoop fuel buf endp ip st).1 + 7) →
        arrayLoop fuel buf' endp ip st = arrayLoop fuel buf endp ip st)
    ∧ (e.WF → IsKey3 e →
        run (e.bytes ++ rest) st = shiftPos e.bytes.length (run rest (applyEntry st e))) := by
  refine ⟨?_, ?_, ?_⟩
  · intro hdet hlen hagree
    obtain ⟨hb, hb', hl⟩ := split_take buf buf' _ hdet hagree
    have hpost : (buf'.drop ((parse buf).1 + 7)).length = (buf.drop ((parse buf).1 + 7)).length := by
      rw [List.length_drop, List.length_drop, hlen]
    have key := parseLoop_agree (buf.take ((parse buf).1 + 7)) (buf.drop ((parse buf).1 + 7))
      (buf'.drop ((parse buf).1 + 7)) hpost buf.length 0 {}
      (by rw [List.take_append_drop, hl]; exact Nat.le_refl _)
    rw [List.take_append_drop, ← hb'] at key
    unfold parse
    rw [hlen]
    exact key
  · intro hreg hdet hagree
    obtain ⟨hb, hb', hl⟩ := split_take buf buf' _ (Nat.le_trans hdet hreg) hagree
    have key := arrayLoop_agree (buf.take ((arrayLoop fuel buf endp ip st).1 + 7))
      (buf.drop ((arrayLoop fuel buf endp ip st).1 + 7))
      (buf'.drop ((arrayLoop fuel buf endp ip st).1 + 7)) endp fuel ip st
      (by rw [List.take_append_drop, hl])
    rw [List.take_append_drop, ← hb'] at key
    exact key
  · intro hwf _
    exact run_entry e rest st hwf

/-- An instance of `truncation_stops_its_loop`: the scenario's buffer cut at 35 against a
buffer with other bytes behind the header of the cut entry; the region
`truncatedArrayValue` against one with other bytes behind the header of its
truncated nested entry; and the tag 4 entry over that region before a `BOOL`
entry. -/
theorem truncation_stops_its_loop_witness :
    (((parse (exampleBuf.take 35)).1 + 7 ≤ (exampleBuf.take 35).length
        ∧ (exampleBuf.take 30 ++ [0x01, 0x02, 0x03, 0x04, 0x05]).length
            = (exampleBuf.take 35).length
        ∧ (exampleBuf.take 30 ++ [0x01, 0x02, 0x03, 0x04, 0x05]).take
              ((parse (exampleBuf.take 35)).1 + 7)
            = (exampleBuf.take 35).take ((parse (exampleBuf.take 35)).1 + 7))
      ∧ parse (exampleBuf.take 30 ++ [0x01, 0x02, 0x03, 0x04, 0x05])
          = parse (exampleBuf.take 35))
    ∧ ((26 ≤ truncatedArrayValue.length
        ∧ (arrayLoop 26 truncatedArrayValue 26 0 {}).1 + 7 ≤ 26
        ∧ (truncatedArrayValue.take 22 ++ [0x09, 0x09, 0x09, 0x09]).take
              ((arrayLoop 26 truncatedArrayValue 26 0 {}).1 + 7)
            = truncatedArrayValue.take ((arrayLoop 26 truncatedArrayValue 26 0 {}).1 + 7))
      ∧ arrayLoop 26 (truncatedArrayValue.take 22 ++ [0x09, 0x09, 0x09, 0x09]) 26 0 {}
          = arrayLoop 26 truncatedArrayValue 26 0 {})
    ∧ ((truncatedArrayEntry.WF ∧ IsKey3 truncatedArrayEntry)
      ∧ run (truncatedArrayEntry.bytes ++ trueEntry.bytes) {}
          = shiftPos truncatedArrayEntry.bytes.length
              (run trueEntry.bytes (applyEntry {} truncatedArrayEntry))) :=
  ⟨⟨⟨by decide, by decide, by decide⟩,
    (truncation_stops_its_loop (exampleBuf.take 35)
      (exampleBuf.take 30 ++ [0x01, 0x02, 0x03, 0x04, 0x05]) 0 0 0 {} trueEntry []).1
      (by decide) (by decide) (by decide)⟩,
   ⟨⟨by decide, by decide, by decide⟩,
    (truncation_stops_its_loop truncatedArrayValue
      (truncatedArrayValue.take 22 ++ [0x09, 0x09, 0x09, 0x09]) 26 0 26 {} trueEntry []).2.1
      (by decide) (by decide) (by decide)⟩,
   ⟨⟨by decide, by decide⟩,
    (truncation_stops_its_loop [] [] 0 0 0 {} truncatedArrayEntry trueEntry.bytes).2.2
      (by decide) (by decide)⟩⟩

/-- C8, as stated, fails for a truncation inside an array region. In the
buffer made of the tag 4 entry over `truncatedArrayValue` followed by a `BOOL`
entry under tag 1, the inner loop detects the truncated nested entry at offset
22 (it prints `truncated inner entry`), and the `BOOL` entry, located behind
it at offset 33, is decoded all the same: `got_key0` is set, which it is not
when the buffer ends with the array entry. -/
theorem entry_after_inner_truncation_decoded :
    truncatedArrayEntry.bytes.length = 33
    ∧ parse (truncatedArrayEntry.bytes ++ trueEntry.bytes)
        = (41, { got_key0 := true, got_key0_val := true, got_key1 := false, got_key1_val := 0,
                 got_key2 := false, got_key2_val := [], got_key3_vals := [10],
                 printed := ["truncated inner entry"] })
    ∧ parse truncatedArrayEntry.bytes
        = (33, { got_key0 := false, got_key0_val := false, got_key1 := false,
                 got_key1_val := 0, got_key2 := false, got_key2_val := [],
                 got_key3_vals := [10], printed := ["truncated inner entry"] }) :=
  ⟨rfl, rfl, rfl⟩

/-- An instance of `duplicate_tag_policy`: tag 1 `true` then `false`, and two
array entries holding `[10]` and `[20, 30]`. -/
theorem duplicate_tag_policy_witness :
    (∀ e ∈ duplicateEntries, e.WF)
    ∧ (parse (encodeEntries duplicateEntries)).2
        = { got_key0 := true, got_key0_val := false, got_key1 := false, got_key1_val := 0,
            got_key2 := false, got_key2_val := [], got_key3_vals := [10, 20, 30],
            printed := [] }
    ∧ (parse (encodeEntries duplicateEntries)).2.got_key0_val
        = ((lastMatch IsKey0 duplicateEntries).map (fun e => e.value.getD 0 0 != 0x00)).getD false
    ∧ (parse (encodeEntries duplicateEntries)).2.got_key3_vals
        = (duplicateEntries.filter (fun e => decide (IsKey3 e))).flatMap
            (fun e => arrayElems e.value) :=
  ⟨by decide, rfl,
   (duplicate_tag_policy duplicateEntries (by decide)).1.2,
   (duplicate_tag_policy duplicateEntries (by decide)).2.2.2⟩

/-! ## Big-endian layout and inverses -/

theorem writeInt64Be_eq (out : List UInt8) (v : Int) :
    writeInt64Be out v = out ++ writeInt64Be [] v := by
  simp [writeInt64Be]

theorem readUint16Be_write (v : Nat) (rest : List UInt8) (h : v < 2 ^ 16) :
    readUint16Be (writeUint16Be [] v ++ rest) 0 = v := by
  simp only [readUint16Be, writeUint16Be, List.nil_append, List.cons_append,
    List.getD_cons_zero, List.getD_cons_succ]
  rw [u16_of_bytes _ _ (UInt8.toNat_lt _)]
  simp only [byte_toNat, and_ff, Nat.shiftRight_eq_div_pow]
  omega

theorem readUint32Be_write (v : Nat) (rest : List UInt8) (h : v < 2 ^ 32) :
    readUint32Be (writeUint32Be [] v ++ rest) 0 = v := by
  simp only [readUint32Be, writeUint32Be, List.nil_append, List.cons_append,
    List.getD_cons_zero, List.getD_cons_succ]
  rw [u32_of_bytes _ _ _ _ (UInt8.toNat_lt _) (UInt8.toNat_lt _) (UInt8.toNat_lt _)]
  simp only [byte_toNat, and_ff, Nat.shiftRight_eq_div_pow]
  omega

/-- C11. INT layout and inverse: for every signed 64-bit `v`, `writeInt64Be`
appends exactly 8 bytes, byte `i` (from 0) being
`((v mod 2 ^ 64) div 2 ^ (8 * (7 - i))) mod 256`, the two's-complement image
of `v` from its most significant byte to its least; `readInt64Be` at the
position of those bytes returns `v`; and in the same way `readUint16Be` reads
back what `writeUint16Be` wrote and `readUint32Be` what `writeUint32Be` wrote. -/
theorem int_layout_and_inverse (out rest : List UInt8) (v : Int) (a b : Nat)
    (hv : IsInt64 v) (ha : a < 2 ^ 16) (hb : b < 2 ^ 32) :
    writeInt64Be out v
        = out ++ (List.range 8).map
            (fun i => UInt8.ofNat ((v % 2 ^ 64).toNat / 2 ^ (8 * (7 - i)) % 256))
      ∧ (writeInt64Be out v).length = out.length + 8
      ∧ readInt64Be (writeInt64Be out v ++ rest) out.length = v
      ∧ readUint16Be (writeUint16Be out a ++ rest) out.length = a
      ∧ readUint32Be (writeUint32Be out b ++ rest) out.length = b := by
  refine ⟨?_, ?_, ?_, ?_, ?_⟩
  · have hr : List.range 8 = [0, 1, 2, 3, 4, 5, 6, 7] := by decide
    rw [hr]
    simp only [writeInt64Be, and_ff, Nat.shiftRight_eq_div_pow, List.map_cons, List.map_nil]
    norm_num
  · rw [writeInt64Be_eq, List.length_append, writeInt64Be_length]
  · rw [writeInt64Be_eq, List.append_assoc]
    have := readInt64Be_shift out (writeInt64Be [] v ++ rest) 0
    rw [Nat.add_zero] at this
    rw [this, readInt64Be_write v rest hv.1 hv.2]
  · have hw : writeUint16Be out a = out ++ writeUint16Be [] a := by simp [writeUint16Be]
    rw [hw, List.append_assoc]
    have := readUint16Be_shift out (writeUint16Be [] a ++ rest) 0
    rw [Nat.add_zero] at this
    rw [this, readUint16Be_write a rest ha]
  · have hw : writeUint32Be out b = out ++ writeUint32Be [] b := by simp [writeUint32Be]
    rw [hw, List.append_assoc]
    have := readUint32Be_shift out (writeUint32Be [] b ++ rest) 0
    rw [Nat.add_zero] at this
    rw [this, readUint32Be_write b rest hb]

/-- Instances of `int_layout_and_inverse` at the two ends of the `int64_t`
range, with the largest 16-bit and 32-bit values. -/
theorem int_layout_and_inverse_witness :
    (IsInt64 (-2 ^ 63) ∧ IsInt64 (2 ^ 63 - 1) ∧ 0xFFFF < 2 ^ 16 ∧ 0xFFFFFFFF < 2 ^ 32)
    ∧ (writeInt64Be [] (-2 ^ 63)
          = [] ++ (List.range 8).map
              (fun i => UInt8.ofNat (((-2 ^ 63 : Int) % 2 ^ 64).toNat / 2 ^ (8 * (7 - i)) % 256))
        ∧ (writeInt64Be [] (-2 ^ 63)).length = ([] : List UInt8).length + 8
        ∧ readInt64Be (writeInt64Be [] (-2 ^ 63) ++ [0x07]) ([] : List UInt8).length = -2 ^ 63
        ∧ readUint16Be (writeUint16Be [] 0xFFFF ++ [0x07]) ([] : List UInt8).length = 0xFFFF
        ∧ readUint32Be (writeUint32Be [] 0xFFFFFFFF ++ [0x07]) ([] : List UInt8).length
            = 0xFFFFFFFF)
    ∧ readInt64Be (writeInt64Be [0x01] (2 ^ 63 - 1) ++ []) ([0x01] : List UInt8).length
        = 2 ^ 63 - 1 :=
  ⟨⟨by decide, by decide, by decide, by decide⟩,
   int_layout_and_inverse [] [0x07] (-2 ^ 63) 0xFFFF 0xFFFFFFFF (by decide) (by decide)
     (by decide),
   (int_layout_and_inverse [0x01] [] (2 ^ 63 - 1) 0 0 (by decide) (by decide)
     (by decide)).2.2.1⟩

/-! ## BOOL coding -/

/-- C12. BOOL coding: the encoder emits the single value byte `0x01` for
`true` and `0x00` for `false` (it is the byte at offset 7 of the serialized
buffer); and for every byte `b`, decoding a complete entry with tag 1, type
`BOOL`, length 1 and value byte `b` sets `got_key0` and leaves `got_key0_val`
false exactly when `b` is `0x00`, true for each other byte value. -/
theorem bool_coding (key0 : Bool) (key1 : Int) (key2 : List UInt8) (key3 : List Int)
    (b : UInt8) :
    ((key0Entry key0).value = [if key0 then 0x01 else 0x00]
      ∧ (serialize key0 key1 key2 key3).take 8
          = [0x00, 0x01, 0x02, 0x00, 0x00, 0x00, 0x01, if key0 then 0x01 else 0x00])
    ∧ parse (writeTLTV [] TAG_KEY0 TYPE_BOOL [b])
        = (8, { got_key0 := true, got_key0_val := (b != 0x00) })
    ∧ ((parse (writeTLTV [] TAG_KEY0 TYPE_BOOL [b])).2.got_key0_val = false ↔ b = 0x00)
    ∧ ((parse (writeTLTV [] TAG_KEY0 TYPE_BOOL [b])).2.got_key0_val = true ↔ b ≠ 0x00) := by
  have hp : parse (writeTLTV [] TAG_KEY0 TYPE_BOOL [b])
      = (8, { got_key0 := true, got_key0_val := (b != 0x00) }) := by
    have he : writeTLTV [] TAG_KEY0 TYPE_BOOL [b]
        = encodeEntries [{ tag := TAG_KEY0, type := TYPE_BOOL, value := [b] }] := rfl
    rw [he, parse_encodeEntries _ (by
      intro e h
      rw [List.mem_singleton] at h
      subst h
      exact ⟨by simp [TAG_KEY0], by simp⟩)]
    rw [List.foldl_cons, List.foldl_nil,
      applyEntry_bool {} { tag := TAG_KEY0, type := TYPE_BOOL, value := [b] } ⟨rfl, rfl, rfl⟩]
    rfl
  refine ⟨⟨rfl, ?_⟩, hp, ?_, ?_⟩
  · rw [serialize_eq, keyEntries, encodeEntries_cons]
    cases key0 <;> rfl
  · rw [hp]; simp
  · rw [hp]; simp

/-! ## The recorded loops are the loops -/

theorem arrayLoopT_zero (buf : List UInt8) (endp ip : Nat) (st : ParseState) :
    arrayLoopT 0 buf endp ip st = { pos := ip, st := st, reads := [], iters := 0 } := rfl

theorem arrayLoopT_succ (fuel : Nat) (buf : List UInt8) (endp ip : Nat) (st : ParseState) :
    arrayLoopT (fuel + 1) buf endp ip st =
      if ip + 7 ≤ endp then
        if ip + 7 + readUint32Be buf (ip + 3) > endp then
          { pos := ip, st := { st with printed := st.printed ++ ["truncated inner entry"] },
            reads := headerIdx ip, iters := 1 }
        else if readUint16Be buf ip = ARR_ELEM_TAG ∧ buf.getD (ip + 2) 0 = TYPE_INT
            ∧ readUint32Be buf (ip + 3) = 8 then
          { arrayLoopT fuel buf endp (ip + 7 + readUint32Be buf (ip + 3))
              { st with got_key3_vals := st.got_key3_vals ++ [readInt64Be buf (ip + 7)] } with
            reads := headerIdx ip ++ readInt64BeIdx (ip + 7)
              ++ (arrayLoopT fuel buf endp (ip + 7 + readUint32Be buf (ip + 3))
                { st with got_key3_vals := st.got_key3_vals ++ [readInt64Be buf (ip + 7)] }).reads,
            iters := (arrayLoopT fuel buf endp (ip + 7 + readUint32Be buf (ip + 3))
                { st with got_key3_vals := st.got_key3_vals ++ [readInt64Be buf (ip + 7)] }).iters
              + 1 }
        else
          { arrayLoopT fuel buf endp (ip + 7 + readUint32Be buf (ip + 3)) st with
            reads := headerIdx ip
              ++ (arrayLoopT fuel buf endp (ip + 7 + readUint32Be buf (ip + 3)) st).reads,
            iters := (arrayLoopT fuel buf endp (ip + 7 + readUint32Be buf (ip + 3)) st).iters
              + 1 }
      else { pos := ip, st := st, reads := [], iters := 0 } := rfl

theorem parseLoopT_zero (buf : List UInt8) (pos : Nat) (st : ParseState) :
    parseLoopT 0 buf pos st = { pos := pos, st := st, reads := [], iters := 0 } := rfl

theorem parseLoopT_succ (fuel : Nat) (buf : List UInt8) (pos : Nat) (st : ParseState) :
    parseLoopT (fuel + 1) buf pos st =
      if pos + 7 ≤ buf.length then
        if pos + 7 + readUint32Be buf (pos + 3) > buf.length then
          { pos := pos, st := { st with printed := st.printed ++ ["truncated entry"] },
            reads := headerIdx pos, iters := 1 }
        else
          { parseLoopT fuel buf (pos + 7 + readUint32Be buf (pos + 3))
              (parseEntryT buf (readUint16Be buf pos) (buf.getD (pos + 2) 0)
                (readUint32Be buf (pos + 3)) (pos + 7) st).1 with
            reads := headerIdx pos
              ++ (parseEntryT buf (readUint16Be buf pos) (buf.getD (pos + 2) 0)
                (readUint32Be buf (pos + 3)) (pos + 7) st).2
              ++ (parseLoopT fuel buf (pos + 7 + readUint32Be buf (pos + 3))
                (parseEntryT buf (readUint16Be buf pos) (buf.getD (pos + 2) 0)
                  (readUint32Be buf (pos + 3)) (pos + 7) st).1).reads,
            iters := (parseLoopT fuel buf (pos + 7 + readUint32Be buf (pos + 3))
                (parseEntryT buf (readUint16Be buf pos) (buf.getD (pos + 2) 0)
                  (readUint32Be buf (pos + 3)) (pos + 7) st).1).iters + 1 }
      else { pos := pos, st := st, reads := [], iters := 0 } := rfl

/-- Forgetting the record of the inner loop gives `arrayLoop`. -/
theorem arrayLoopT_erase (buf : List UInt8) (endp fuel : Nat) :
    ∀ (ip : Nat) (st : ParseState),
      ((arrayLoopT fuel buf endp ip st).pos, (arrayLoopT fuel buf endp ip st).st)
        = arrayLoop fuel buf endp ip st := by
  induction fuel with
  | zero => intro ip st; rfl
  | succ n ih =>
    intro ip st
    rw [arrayLoopT_succ, arrayLoop_succ]
    by_cases h1 : ip + 7 ≤ endp
    · rw [if_pos h1, if_pos h1]
      by_cases h2 : ip + 7 + readUint32Be buf (ip + 3) > endp
      · rw [if_pos h2, if_pos h2]
      · rw [if_neg h2, if_neg h2]
        by_cases h3 : readUint16Be buf ip = ARR_ELEM_TAG ∧ buf.getD (ip + 2) 0 = TYPE_INT
            ∧ readUint32Be buf (ip + 3) = 8
        · rw [if_pos h3, if_pos h3]; exact ih _ _
        · rw [if_neg h3, if_neg h3]; exact ih _ _
    · rw [if_neg h1, if_neg h1]

/-- Forgetting the record of the dispatch gives `parseEntry`. -/
theorem parseEntryT_erase (buf : List UInt8) (tag : Nat) (type : UInt8) (length valuePos : Nat)
    (st : ParseState) :
    (parseEntryT buf tag type length valuePos st).1 = parseEntry buf tag type length valuePos st := by
  unfold parseEntryT parseEntry
  by_cases h0 : tag = TAG_KEY0 ∧ type = TYPE_BOOL ∧ length = 1
  · rw [if_pos h0, if_pos h0]
  · rw [if_neg h0, if_neg h0]
    by_cases h1 : tag = TAG_KEY1 ∧ type = TYPE_INT ∧ length = 8
    · rw [if_pos h1, if_pos h1]
    · rw [if_neg h1, if_neg h1]
      by_cases h2 : tag = TAG_KEY2 ∧ type = TYPE_STRING
      · rw [if_pos h2, if_pos h2]
      · rw [if_neg h2, if_neg h2]
        by_cases h3 : tag = TAG_KEY3 ∧ type = TYPE_ARRAY
        · rw [if_pos h3, if_pos h3]
          exact congrArg Prod.snd (arrayLoopT_erase buf (valuePos + length) length valuePos st)
        · rw [if_neg h3, if_neg h3]

/-- Forgetting the record of the top-level loop gives `parseLoop`. -/
theorem parseLoopT_erase (buf : List UInt8) (fuel : Nat) :
    ∀ (pos : Nat) (st : ParseState),
      ((parseLoopT fuel buf pos st).pos, (parseLoopT fuel buf pos st).st)
        = parseLoop fuel buf pos st := by
  induction fuel with
  | zero => intro pos st; rfl
  | succ n ih =>
    intro pos st
    rw [parseLoopT_succ, parseLoop_succ]
    by_cases h1 : pos + 7 ≤ buf.length
    · rw [if_pos h1, if_pos h1]
      by_cases h2 : pos + 7 + readUint32Be buf (pos + 3) > buf.length
      · rw [if_pos h2, if_pos h2]
      · rw [if_neg h2, if_neg h2, ← parseEntryT_erase]
        exact ih _ _
    · rw [if_neg h1, if_neg h1]

theorem parseT_erase (buf : List UInt8) : ((parseT buf).pos, (parseT buf).st) = parse buf :=
  parseLoopT_erase buf buf.length 0 {}

/-! ## Every read is guarded -/

theorem headerIdx_bound (pos i : Nat) (h : i ∈ headerIdx pos) : pos ≤ i ∧ i < pos + 7 := by
  simp only [headerIdx, readUint16BeIdx, readUint32BeIdx, List.cons_append, List.nil_append,
    List.mem_cons, List.mem_singleton, List.not_mem_nil, or_false] at h
  omega

theorem readInt64BeIdx_bound (pos i : Nat) (h : i ∈ readInt64BeIdx pos) :
    pos ≤ i ∧ i < pos + 8 := by
  simp only [readInt64BeIdx, List.mem_cons, List.mem_singleton, List.not_mem_nil, or_false] at h
  omega

/-- The inner loop reads inside its region only, from its cursor on. -/
theorem arrayLoopT_reads (buf : List UInt8) (endp fuel : Nat) :
    ∀ (ip : Nat) (st : ParseState), ∀ i ∈ (arrayLoopT fuel buf endp ip st).reads,
      ip ≤ i ∧ i < endp := by
  induction fuel with
  | zero => intro ip st i h; simp [arrayLoopT_zero] at h
  | succ n ih =>
    intro ip st i h
    rw [arrayLoopT_succ] at h
    by_cases h1 : ip + 7 ≤ endp
    · rw [if_pos h1] at h
      by_cases h2 : ip + 7 + readUint32Be buf (ip + 3) > endp
      · rw [if_pos h2] at h
        have := headerIdx_bound ip i h
        omega
      · rw [if_neg h2] at h
        by_cases h3 : readUint16Be buf ip = ARR_ELEM_TAG ∧ buf.getD (ip + 2) 0 = TYPE_INT
            ∧ readUint32Be buf (ip + 3) = 8
        · rw [if_pos h3] at h
          simp only [List.mem_append] at h
          rcases h with (h | h) | h
          · have := headerIdx_bound ip i h
            omega
          · have := readInt64BeIdx_bound (ip + 7) i h
            have := h3.2.2
            omega
          · have := ih _ _ i h
            omega
        · rw [if_neg h3] at h
          simp only [List.mem_append] at h
          rcases h with h | h
          · have := headerIdx_bound ip i h
            omega
          · have := ih _ _ i h
            omega
    · rw [if_neg h1] at h
      simp at h

/-- The dispatch indexes the value region of its entry only, with one
exception: the `STRING` branch evaluates `buf[valuePos]` even when the declared
length is 0, and then `valuePos` is the end of the (empty) region. -/
theorem parseEntryT_reads (buf : List UInt8) (tag : Nat) (type : UInt8) (length valuePos : Nat)
    (st : ParseState) :
    ∀ i ∈ (parseEntryT buf tag type length valuePos st).2,
      valuePos ≤ i ∧ (i < valuePos + length
        ∨ (i = valuePos ∧ length = 0 ∧ tag = TAG_KEY2 ∧ type = TYPE_STRING)) := by
  intro i h
  unfold parseEntryT at h
  by_cases h0 : tag = TAG_KEY0 ∧ type = TYPE_BOOL ∧ length = 1
  · rw [if_pos h0] at h
    simp only [List.mem_singleton] at h
    have := h0.2.2
    omega
  · rw [if_neg h0] at h
    by_cases h1 : tag = TAG_KEY1 ∧ type = TYPE_INT ∧ length = 8
    · rw [if_pos h1] at h
      have := readInt64BeIdx_bound valuePos i h
      have := h1.2.2
      omega
    · rw [if_neg h1] at h
      by_cases h2 : tag = TAG_KEY2 ∧ type = TYPE_STRING
      · rw [if_pos h2] at h
        simp only [List.mem_cons, List.mem_range'_1] at h
        rcases h with h | h
        · by_cases hl : length = 0
          · exact ⟨by omega, Or.inr ⟨h, hl, h2.1, h2.2⟩⟩
          · exact ⟨by omega, Or.inl (by omega)⟩
        · exact ⟨h.1, Or.inl h.2⟩
      · rw [if_neg h2] at h
        by_cases h3 : tag = TAG_KEY3 ∧ type = TYPE_ARRAY
        · rw [if_pos h3] at h
          have := arrayLoopT_reads buf (valuePos + length) length valuePos st i h
          exact ⟨this.1, Or.inl this.2⟩
        · rw [if_neg h3] at h
          simp at h

/-- The top-level loop indexes the buffer below its size, from its cursor on,
with one exception: the value position of a tag 3 `STRING` entry that declares
length 0 and ends the buffer, which is the size of the buffer. -/
theorem parseLoopT_reads (buf : List UInt8) (fuel : Nat) :
    ∀ (pos : Nat) (st : ParseState), ∀ i ∈ (parseLoopT fuel buf pos st).reads,
      pos ≤ i ∧ (i < buf.length
        ∨ (i = buf.length ∧ 7 ≤ i ∧ readUint16Be buf (i - 7) = TAG_KEY2
            ∧ buf.getD (i - 7 + 2) 0 = TYPE_STRING ∧ readUint32Be buf (i - 7 + 3) = 0)) := by
  induction fuel with
  | zero => intro pos st i h; simp [parseLoopT_zero] at h
  | succ n ih =>
    intro pos st i h
    rw [parseLoopT_succ] at h
    by_cases h1 : pos + 7 ≤ buf.length
    · rw [if_pos h1] at h
      by_cases h2 : pos + 7 + readUint32Be buf (pos + 3) > buf.length
      · rw [if_pos h2] at h
        have := headerIdx_bound pos i h
        exact ⟨this.1, Or.inl (by omega)⟩
      · rw [if_neg h2] at h
        simp only [List.mem_append] at h
        rcases h with (h | h) | h
        · have := headerIdx_bound pos i h
          exact ⟨this.1, Or.inl (by omega)⟩
        · obtain ⟨hlo, hhi⟩ := parseEntryT_reads _ _ _ _ _ _ i h
          refine ⟨by omega, ?_⟩
          rcases hhi with hhi | ⟨hi, hl, ht, hty⟩
          · exact Or.inl (by omega)
          · by_cases hend : i < buf.length
            · exact Or.inl hend
            · have hpos : i - 7 = pos := by omega
              refine Or.inr ⟨by omega, by omega, ?_, ?_, ?_⟩
              · rw [hpos]; exact ht
              · rw [hpos]; exact hty
              · rw [hpos]; exact hl
        · have := ih _ _ i h
          exact ⟨by omega, this.2⟩
    · rw [if_neg h1] at h
      simp at h

/-- No index the decoder evaluates lies beyond the size of the buffer. -/
theorem parseT_reads_le (buf : List UInt8) : ∀ i ∈ (parseT buf).reads, i ≤ buf.length := by
  intro i h
  rcases (parseLoopT_reads buf buf.length 0 {} i h).2 with h | h
  · exact Nat.le_of_lt h
  · exact Nat.le_of_eq h.1

/-- C13, at the input on which the code breaks it. The 7-byte buffer
`emptyStringBuf` is what `writeTLTV` makes of an empty string under tag 3. The
check of line 136 lets the entry through (`valuePos + length = 7 = buf.size()`),
the `STRING` branch is taken and line 146 evaluates `buf[valuePos]` with
`valuePos = 7`: the decoder indexes the buffer at its size, so not every index
it evaluates is below the size of the buffer. The decoded state is the one of
an empty string, and nothing is printed. -/
theorem string_index_reaches_size :
    writeTLTV [] TAG_KEY2 TYPE_STRING [] = emptyStringBuf
    ∧ emptyStringBuf.length = 7
    ∧ (parseT emptyStringBuf).reads = [0, 1, 2, 3, 4, 5, 6, 7]
    ∧ ¬ (∀ i ∈ (parseT emptyStringBuf).reads, i < emptyStringBuf.length)
    ∧ parse emptyStringBuf = (7, { got_key2 := true, got_key2_val := [] }) := by
  refine ⟨rfl, rfl, rfl, ?_, rfl⟩
  intro h
  exact absurd (h 7 (by decide)) (by decide)

/-! ## Termination and iteration counts -/

/-- Each iteration the inner loop enters finds 7 bytes of region in front of
its cursor and leaves the cursor behind them, or is the last. -/
theorem arrayLoopT_iters (buf : List UInt8) (endp fuel : Nat) :
    ∀ (ip : Nat) (st : ParseState), (arrayLoopT fuel buf endp ip st).iters ≤ (endp - ip) / 7 := by
  induction fuel with
  | zero => intro ip st; exact Nat.zero_le _
  | succ n ih =>
    intro ip st
    rw [arrayLoopT_succ]
    by_cases h1 : ip + 7 ≤ endp
    · rw [if_pos h1]
      by_cases h2 : ip + 7 + readUint32Be buf (ip + 3) > endp
      · rw [if_pos h2]
        show 1 ≤ (endp - ip) / 7
        omega
      · rw [if_neg h2]
        by_cases h3 : readUint16Be buf ip = ARR_ELEM_TAG ∧ buf.getD (ip + 2) 0 = TYPE_INT
            ∧ readUint32Be buf (ip + 3) = 8
        · rw [if_pos h3]
          have := ih (ip + 7 + readUint32Be buf (ip + 3))
            { st with got_key3_vals := st.got_key3_vals ++ [readInt64Be buf (ip + 7)] }
          show _ + 1 ≤ (endp - ip) / 7
          omega
        · rw [if_neg h3]
          have := ih (ip + 7 + readUint32Be buf (ip + 3)) st
          show _ + 1 ≤ (endp - ip) / 7
          omega
    · rw [if_neg h1]
      exact Nat.zero_le _

/-- Each iteration the top-level loop enters finds 7 bytes of buffer in front
of its cursor and leaves the cursor behind them, or is the last. -/
theorem parseLoopT_iters (buf : List UInt8) (fuel : Nat) :
    ∀ (pos : Nat) (st : ParseState),
      (parseLoopT fuel buf pos st).iters ≤ (buf.length - pos) / 7 := by
  induction fuel with
  | zero => intro pos st; exact Nat.zero_le _
  | succ n ih =>
    intro pos st
    rw [parseLoopT_succ]
    by_cases h1 : pos + 7 ≤ buf.length
    · rw [if_pos h1]
      by_cases h2 : pos + 7 + readUint32Be buf (pos + 3) > buf.length
      · rw [if_pos h2]
        show 1 ≤ (buf.length - pos) / 7
        omega
      · rw [if_neg h2]
        have := ih (pos + 7 + readUint32Be buf (pos + 3))
          (parseEntryT buf (readUint16Be buf pos) (buf.getD (pos + 2) 0)
            (readUint32Be buf (pos + 3)) (pos + 7) st).1
        show _ + 1 ≤ (buf.length - pos) / 7
        omega
    · rw [if_neg h1]
      exact Nat.zero_le _

/-- Any two sufficient amounts of fuel give the same recorded inner run. -/
theorem arrayLoopT_fuel (buf : List UInt8) (endp : Nat) :
    ∀ (f g ip : Nat) (st : ParseState), endp < ip + 7 * (f + 1) → endp < ip + 7 * (g + 1) →
      arrayLoopT f buf endp ip st = arrayLoopT g buf endp ip st := by
  intro f
  induction f with
  | zero =>
    intro g ip st hf _
    cases g with
    | zero => rfl
    | succ m =>
      have h1 : ¬ ip + 7 ≤ endp := by omega
      rw [arrayLoopT_succ, arrayLoopT_zero, if_neg h1]
  | succ n ih =>
    intro g ip st hf hg
    cases g with
    | zero =>
      have h1 : ¬ ip + 7 ≤ endp := by omega
      rw [arrayLoopT_succ, arrayLoopT_zero, if_neg h1]
    | succ m =>
      rw [arrayLoopT_succ, arrayLoopT_succ]
      by_cases h1 : ip + 7 ≤ endp
      · rw [if_pos h1, if_pos h1]
        by_cases h2 : ip + 7 + readUint32Be buf (ip + 3) > endp
        · rw [if_pos h2, if_pos h2]
        · rw [if_neg h2, if_neg h2]
          rw [ih m (ip + 7 + readUint32Be buf (ip + 3)) st (by omega) (by omega),
            ih m (ip + 7 + readUint32Be buf (ip + 3))
              { st with got_key3_vals := st.got_key3_vals ++ [readInt64Be buf (ip + 7)] }
              (by omega) (by omega)]
      · rw [if_neg h1, if_neg h1]

/-- Any two sufficient amounts of fuel give the same recorded top-level run. -/
theorem parseLoopT_fuel (buf : List UInt8) :
    ∀ (f g pos : Nat) (st : ParseState), buf.length < pos + 7 * (f + 1) →
      buf.length < pos + 7 * (g + 1) → parseLoopT f buf pos st = parseLoopT g buf pos st := by
  intro f
  induction f with
  | zero =>
    intro g pos st hf _
    cases g with
    | zero => rfl
    | succ m =>
      have h1 : ¬ pos + 7 ≤ buf.length := by omega
      rw [parseLoopT_succ, parseLoopT_zero, if_neg h1]
  | succ n ih =>
    intro g pos st hf hg
    cases g with
    | zero =>
      have h1 : ¬ pos + 7 ≤ buf.length := by omega
      rw [parseLoopT_succ, parseLoopT_zero, if_neg h1]
    | succ m =>
      rw [parseLoopT_succ, parseLoopT_succ]
      by_cases h1 : pos + 7 ≤ buf.length
      · rw [if_pos h1, if_pos h1]
        by_cases h2 : pos + 7 + readUint32Be buf (pos + 3) > buf.length
        · rw [if_pos h2, if_pos h2]
        · rw [if_neg h2, if_neg h2]
          rw [ih m (pos + 7 + readUint32Be buf (pos + 3)) _ (by omega) (by omega)]
      · rw [if_neg h1, if_neg h1]

/-- C14. Termination of the decoder: for every byte buffer both loops end by
their own exit, the top-level loop within `size / 7` iterations and the inner
loop, for an array entry of declared length `length`, within `length / 7`.
(1, 2) From any cursor the iterations entered are at most a seventh of the
bytes between the cursor and the end of the buffer, or of the region, because
an iteration needs 7 bytes in front of the cursor and, unless it breaks, moves
the cursor by at least those 7. (3, 4) So the decoder enters at most `size /
7` iterations and the inner loop of an array entry at most `length / 7`. (5,
6) That much fuel is already enough: any larger amount gives the same run.
(7) The run ends where the source loop ends: with no room for a header behind
the cursor, or on the truncation break. -/
theorem decoder_terminates (buf : List UInt8) (fuel pos endp ip length valuePos : Nat)
    (st : ParseState) :
    (parseLoopT fuel buf pos st).iters ≤ (buf.length - pos) / 7
      ∧ (arrayLoopT fuel buf endp ip st).iters ≤ (endp - ip) / 7
      ∧ (parseT buf).iters ≤ buf.length / 7
      ∧ (arrayLoopT length buf (valuePos + length) valuePos st).iters ≤ length / 7
      ∧ (buf.length / 7 ≤ fuel → parseLoopT fuel buf 0 st = parseLoopT (buf.length / 7) buf 0 st)
      ∧ (length / 7 ≤ fuel →
          arrayLoopT fuel buf (valuePos + length) valuePos st
            = arrayLoopT (length / 7) buf (valuePos + length) valuePos st)
      ∧ (buf.length < (parse buf).1 + 7
          ∨ buf.length < (parse buf).1 + 7 + readUint32Be buf ((parse buf).1 + 3)) := by
  refine ⟨parseLoopT_iters buf fuel pos st, arrayLoopT_iters buf endp fuel ip st, ?_, ?_, ?_, ?_,
    ?_⟩
  · exact parseLoopT_iters buf buf.length 0 {}
  · have := arrayLoopT_iters buf (valuePos + length) length valuePos st
    rwa [Nat.add_sub_cancel_left] at this
  · intro h
    exact parseLoopT_fuel buf fuel (buf.length / 7) 0 st (by omega) (by omega)
  · intro h
    exact arrayLoopT_fuel buf (valuePos + length) fuel (length / 7) valuePos st (by omega)
      (by omega)
  · exact parseLoop_exit buf buf.length 0 {} (by omega)

/-- An instance of `decoder_terminates`: the scenario's buffer of 101 bytes
is decoded in 4 iterations of at most 14, its array of declared length 45 in
3 iterations of at most 6, and the fuel `parse` and the dispatch pass (101 and
45) is beyond what is needed. -/
theorem decoder_terminates_witness :
    (exampleBuf.length / 7 ≤ 101 ∧ 45 / 7 ≤ 45)
    ∧ ((parseT exampleBuf).iters = 4 ∧ exampleBuf.length / 7 = 14
        ∧ (arrayLoopT 45 exampleBuf (56 + 45) 56 {}).iters = 3)
    ∧ (parseT exampleBuf).iters ≤ exampleBuf.length / 7
    ∧ (arrayLoopT 45 exampleBuf (56 + 45) 56 {}).iters ≤ 45 / 7
    ∧ parseLoopT 101 exampleBuf 0 {} = parseLoopT (exampleBuf.length / 7) exampleBuf 0 {}
    ∧ arrayLoopT 45 exampleBuf (56 + 45) 56 {} = arrayLoopT (45 / 7) exampleBuf (56 + 45) 56 {} :=
  ⟨⟨by decide, by decide⟩, ⟨by decide, by decide, by decide⟩,
   (decoder_terminates exampleBuf 101 0 0 0 45 56 {}).2.2.1,
   (decoder_terminates exampleBuf 101 0 0 0 45 56 {}).2.2.2.1,
   (decoder_terminates exampleBuf 101 0 0 0 45 56 {}).2.2.2.2.1 (by decide),
   (decoder_terminates exampleBuf 45 0 0 0 45 56 {}).2.2.2.2.2.1 (by decide)⟩

/-! ## The inner loop on a region of complete nested entries -/

theorem runArray_encodeEntries (ns : List Entry) (hwf : ∀ n ∈ ns, n.WF) (st : ParseState) :
    runArray (encodeEntries ns) (encodeEntries ns).length st
      = ((encodeEntries ns).length, ns.foldl applyElem st) := by
  have h := runArray_entries ns hwf [] 0 st
  rw [List.append_nil, Nat.add_zero, runArray_nil 0 _ (by omega)] at h
  rw [h]
  rfl

theorem applyElem_printed (st : ParseState) (e : Entry) :
    (applyElem st e).printed = st.printed := by
  unfold applyElem
  split <;> rfl

theorem foldl_applyElem_printed (ns : List Entry) :
    ∀ st : ParseState, (ns.foldl applyElem st).printed = st.printed := by
  induction ns with
  | nil => intro st; rfl
  | cons n ns ih => intro st; rw [List.foldl_cons, ih, applyElem_printed]

/-- The elements a run of the inner loop over complete nested entries
appends: the values of the entries line 157 accepts, in order. -/
theorem foldl_applyElem_filter (ns : List Entry) :
    ∀ st : ParseState,
      ns.foldl applyElem st
        = { st with
            got_key3_vals := st.got_key3_vals
              ++ (ns.filter (fun n => decide (IsElem n))).map (fun n => readInt64Be n.value 0) } := by
  induction ns with
  | nil => intro st; simp
  | cons n ns ih =>
    intro st
    rw [List.foldl_cons, ih]
    by_cases h : IsElem n
    · have ha : applyElem st n
          = { st with got_key3_vals := st.got_key3_vals ++ [readInt64Be n.value 0] } := by
        unfold applyElem; exact if_pos h
      rw [ha]
      simp [h]
    · have ha : applyElem st n = st := by
        unfold applyElem; exact if_neg h
      rw [ha]
      simp [h]

/-! ## The serialized buffer in front of its array region -/

theorem serialize_split (key0 : Bool) (key1 : Int) (key2 : List UInt8) (key3 : List Int)
    (h3 : 15 * key3.length < 2 ^ 32) :
    ∃ pre : List UInt8, pre.length = 37 + key2.length
      ∧ serialize key0 key1 key2 key3 = pre ++ writeElems key3 := by
  refine ⟨encodeEntries [key0Entry key0, key1Entry key1, key2Entry key2]
    ++ header TAG_KEY3 TYPE_ARRAY (writeElems key3).length, ?_, ?_⟩
  · simp only [encodeEntries_cons, encodeEntries_nil, Entry.bytes_length, key0Entry, key1Entry,
      key2Entry, writeInt64Be_length, List.length_append, List.length_cons, List.length_nil,
      header_length]
    omega
  · have hm : (writeElems key3).length % 2 ^ 32 = (writeElems key3).length := by
      rw [writeElems_length]; exact Nat.mod_eq_of_lt h3
    rw [serialize_eq, keyEntries]
    simp only [encodeEntries_cons, encodeEntries_nil, List.append_assoc, List.append_nil]
    rw [Entry.bytes_eq (key3Entry key3)]
    simp only [key3Entry, hm]

/-- C15. The encoder's output is well formed for the decoder: for every
`key0`, `key1`, `key2` of fewer than `2 ^ 32` bytes and `key3` with `15 *
|key3| < 2 ^ 32`, decoding the serialized buffer takes no truncation branch
(each of the two prints, and nothing is printed, by the top-level loop or by
the inner loop from any state), the top-level cursor ends at the size of the
buffer, and the inner loop, run as the dispatch runs it on the array entry's
value region `[37 + |key2|, 37 + |key2| + 15 * |key3|)`, ends with its cursor
at the end of that region, which is the end of the buffer. -/
theorem encoder_output_well_formed (key0 : Bool) (key1 : Int) (key2 : List UInt8)
    (key3 : List Int) (st : ParseState) (h2 : key2.length < 2 ^ 32)
    (h3 : 15 * key3.length < 2 ^ 32) :
    (parse (serialize key0 key1 key2 key3)).1 = (serialize key0 key1 key2 key3).length
      ∧ (parse (serialize key0 key1 key2 key3)).2.printed = []
      ∧ (serialize key0 key1 key2 key3).length = 37 + key2.length + 15 * key3.length
      ∧ (arrayLoop (15 * key3.length) (serialize key0 key1 key2 key3)
            (37 + key2.length + 15 * key3.length) (37 + key2.length) st).1
          = 37 + key2.length + 15 * key3.length
      ∧ (arrayLoop (15 * key3.length) (serialize key0 key1 key2 key3)
            (37 + key2.length + 15 * key3.length) (37 + key2.length) st).2.printed
          = st.printed := by
  have hwfe : ∀ n ∈ key3.map elemEntry, n.WF := by
    intro n hn
    obtain ⟨x, _, rfl⟩ := List.mem_map.mp hn
    exact elemEntry_wf x
  have hrun : ∀ s : ParseState, runArray (writeElems key3) (writeElems key3).length s
      = ((writeElems key3).length, (key3.map elemEntry).foldl applyElem s) := by
    intro s
    rw [writeElems_eq]
    exact runArray_encodeEntries _ hwfe s
  obtain ⟨pre, hpl, hs⟩ := serialize_split key0 key1 key2 key3 h3
  have hvl := writeElems_length key3
  have hinner : arrayLoop (15 * key3.length) (serialize key0 key1 key2 key3)
      (37 + key2.length + 15 * key3.length) (37 + key2.length) st
      = (37 + key2.length + 15 * key3.length, (key3.map elemEntry).foldl applyElem st) := by
    have hsh := arrayLoop_shift pre (writeElems key3) (writeElems key3).length
      (writeElems key3).length 0 st
    have hr := hrun st
    unfold runArray at hr
    rw [hr, hpl, hvl, Nat.add_zero] at hsh
    rw [hs, hsh]
  refine ⟨?_, ?_, ?_, ?_, ?_⟩
  · rw [parse_eq_run, serialize_eq,
      run_encodeEntries _ (keyEntries_wf key0 key1 key2 key3 h2 h3)]
  · rw [parse_eq_run, serialize_eq,
      run_encodeEntries _ (keyEntries_wf key0 key1 key2 key3 h2 h3)]
    simp only [keyEntries, List.foldl_cons, List.foldl_nil]
    rw [applyEntry_array _ (key3Entry key3) ⟨rfl, rfl⟩]
    have hv : (key3Entry key3).value = writeElems key3 := rfl
    rw [hv, hrun, foldl_applyElem_printed,
      applyEntry_string _ (key2Entry key2) ⟨rfl, rfl⟩,
      applyEntry_int _ (key1Entry key1) ⟨rfl, rfl, rfl⟩,
      applyEntry_bool _ (key0Entry key0) ⟨rfl, rfl, rfl⟩]
  · rw [hs, List.length_append, hpl, hvl]
  · rw [hinner]
  · rw [hinner, foldl_applyElem_printed]

/-- The scenario of the program (lines 58-61) as an instance of
`encoder_output_well_formed`. -/
theorem encoder_output_well_formed_witness :
    (key2Example.length < 2 ^ 32 ∧ 15 * [(10 : Int), 20, 30].length < 2 ^ 32)
    ∧ (parse (serialize true 123456789 key2Example [10, 20, 30])).1
        = (serialize true 123456789 key2Example [10, 20, 30]).length
    ∧ (parse (serialize true 123456789 key2Example [10, 20, 30])).2.printed = []
    ∧ (arrayLoop (15 * [(10 : Int), 20, 30].length)
          (serialize true 123456789 key2Example [10, 20, 30])
          (37 + key2Example.length + 15 * [(10 : Int), 20, 30].length)
          (37 + key2Example.length) {}).1
        = 37 + key2Example.length + 15 * [(10 : Int), 20, 30].length :=
  ⟨⟨by decide, by decide⟩,
   (encoder_output_well_formed true 123456789 key2Example [10, 20, 30] {} (by decide)
      (by decide)).1,
   (encoder_output_well_formed true 123456789 key2Example [10, 20, 30] {} (by decide)
      (by decide)).2.1,
   (encoder_output_well_formed true 123456789 key2Example [10, 20, 30] {} (by decide)
      (by decide)).2.2.2.1⟩

/-- C16. Decoding is compositional over concatenation: for complete entries
`A` (whatever their nested regions hold) and any bytes `B`, the state after
decoding `A ++ B` is the state the parse loop reaches on `B` alone when it
starts from the state decoding `A` reached, and the cursor is the one of that
run moved by the size of `A`; decoding `A` alone ends at the end of `A`, and
with `B` empty decoding `A ++ B` is decoding `A`. -/
theorem decoding_compositional (A : List Entry) (B : List UInt8) (hA : ∀ e ∈ A, e.WF) :
    (parse (encodeEntries A ++ B)).2
        = (parseLoop B.length B 0 (parse (encodeEntries A)).2).2
      ∧ (parse (encodeEntries A ++ B)).1
          = (encodeEntries A).length + (parseLoop B.length B 0 (parse (encodeEntries A)).2).1
      ∧ (parse (encodeEntries A)).1 = (encodeEntries A).length
      ∧ parse (encodeEntries A ++ []) = parse (encodeEntries A) := by
  have h := run_entries A hA B {}
  have hA' := parse_encodeEntries A hA
  refine ⟨?_, ?_, ?_, ?_⟩
  · rw [parse_eq_run, h, hA']; rfl
  · rw [parse_eq_run, h, hA']; rfl
  · rw [hA']
  · rw [List.append_nil]

/-- An instance of `decoding_compositional`: the first two entries of the
scenario as `A`, the bytes of the other two as `B`. -/
theorem decoding_compositional_witness :
    (∀ e ∈ [key0Entry true, key1Entry 123456789], e.WF)
    ∧ (parse (encodeEntries [key0Entry true, key1Entry 123456789] ++ exampleBuf.drop 23)).2
        = (parseLoop (exampleBuf.drop 23).length (exampleBuf.drop 23) 0
            (parse (encodeEntries [key0Entry true, key1Entry 123456789])).2).2
    ∧ (parse (encodeEntries [key0Entry true, key1Entry 123456789] ++ exampleBuf.drop 23)).1
        = (encodeEntries [key0Entry true, key1Entry 123456789]).length
          + (parseLoop (exampleBuf.drop 23).length (exampleBuf.drop 23) 0
              (parse (encodeEntries [key0Entry true, key1Entry 123456789])).2).1 :=
  ⟨by decide,
   (decoding_compositional [key0Entry true, key1Entry 123456789] (exampleBuf.drop 23)
      (by decide)).1,
   (decoding_compositional [key0Entry true, key1Entry 123456789] (exampleBuf.drop 23)
      (by decide)).2.1⟩

/-- C17. Array element filter: for every tag 4 `ARRAY` entry whose value
region is a concatenation of complete nested entries `ns`, from any state and
before any bytes `rest`, the decoder appends to `got_key3_vals` exactly the
big-endian 64-bit values of the nested entries with tag `0x0001`, type `INT`
and length 8, in region order, and changes nothing else before it goes on with
`rest`; the inner loop over the region runs to the end of the region, so a
nested entry it does not accept adds nothing and does not keep the later ones
from being scanned. -/
theorem array_element_filter (ns : List Entry) (rest : List UInt8) (st : ParseState)
    (hns : ∀ n ∈ ns, n.WF) (hlen : (encodeEntries ns).length < 2 ^ 32) :
    run (writeTLTV [] TAG_KEY3 TYPE_ARRAY (encodeEntries ns) ++ rest) st
        = shiftPos (7 + (encodeEntries ns).length)
            (run rest
              { st with
                got_key3_vals := st.got_key3_vals
                  ++ (ns.filter (fun n => decide (IsElem n))).map
                      (fun n => readInt64Be n.value 0) })
      ∧ arrayLoop (encodeEntries ns).length (encodeEntries ns) (encodeEntries ns).length 0 st
          = ((encodeEntries ns).length,
             { st with
               got_key3_vals := st.got_key3_vals
                 ++ (ns.filter (fun n => decide (IsElem n))).map
                     (fun n => readInt64Be n.value 0) }) := by
  have hinner := runArray_encodeEntries ns hns st
  rw [foldl_applyElem_filter] at hinner
  refine ⟨?_, hinner⟩
  have he : writeTLTV [] TAG_KEY3 TYPE_ARRAY (encodeEntries ns)
      = Entry.bytes { tag := TAG_KEY3, type := TYPE_ARRAY, value := encodeEntries ns } := rfl
  rw [he, run_entry _ rest st ⟨by simp [TAG_KEY3], hlen⟩, Entry.bytes_length,
    applyEntry_array st { tag := TAG_KEY3, type := TYPE_ARRAY, value := encodeEntries ns }
      ⟨rfl, rfl⟩]
  show shiftPos (7 + (encodeEntries ns).length)
    (run rest (runArray (encodeEntries ns) (encodeEntries ns).length st).2) = _
  rw [hinner]

/-- An instance of `array_element_filter`: the element 10, an `INT` entry of
length 4 under the element tag, a `BOOL` entry, an `INT` entry under tag 2 and
the element 20; the decoder keeps 10 and 20. -/
theorem array_element_filter_witness :
    ((∀ n ∈ mixedElems, n.WF) ∧ (encodeEntries mixedElems).length < 2 ^ 32)
    ∧ (mixedElems.filter (fun n => decide (IsElem n))).map (fun n => readInt64Be n.value 0)
        = [10, 20]
    ∧ arrayLoop (encodeEntries mixedElems).length (encodeEntries mixedElems)
          (encodeEntries mixedElems).length 0 {}
        = ((encodeEntries mixedElems).length,
           { ({} : ParseState) with
             got_key3_vals := ({} : ParseState).got_key3_vals
               ++ (mixedElems.filter (fun n => decide (IsElem n))).map
                   (fun n => readInt64Be n.value 0) }) :=
  ⟨⟨by decide, by decide⟩, by decide,
   (array_element_filter mixedElems [] {} (by decide) (by decide)).2⟩

/-- C18. Length field wrap-around: for every value the length field
`writeTLTV` writes reads back as `|value| mod 2 ^ 32`, so it is the number of
value bytes that follow the header exactly when `|value| < 2 ^ 32`; and there
is a value (`2 ^ 32` zero bytes) for which `writeTLTV` returns an entry, as
for any value, whose length field (0) is not the number of its value bytes. -/
theorem length_field_wraps (buf : List UInt8) (tag : Nat) (type : UInt8) (value : List UInt8) :
    readUint32Be (writeTLTV buf tag type value) (buf.length + 3) = value.length % 2 ^ 32
      ∧ (writeTLTV buf tag type value).drop (buf.length + 7) = value
      ∧ (readUint32Be (writeTLTV buf tag type value) (buf.length + 3) = value.length
          ↔ value.length < 2 ^ 32)
      ∧ ∃ big : List UInt8, big.length = 2 ^ 32
          ∧ readUint32Be (writeTLTV buf tag type big) (buf.length + 3) = 0
          ∧ readUint32Be (writeTLTV buf tag type big) (buf.length + 3) ≠ big.length
          ∧ (writeTLTV buf tag type big).drop (buf.length + 7) = big := by
  have hread : ∀ v : List UInt8,
      readUint32Be (writeTLTV buf tag type v) (buf.length + 3) = v.length % 2 ^ 32 := by
    intro v
    rw [writeTLTV_eq, readUint32Be_shift]
    exact read_header_len _ _ _ _ (Nat.mod_lt _ (by norm_num))
  have hdrop : ∀ v : List UInt8, (writeTLTV buf tag type v).drop (buf.length + 7) = v := by
    intro v
    rw [writeTLTV_eq, ← List.append_assoc]
    apply List.drop_left'
    rw [List.length_append, header_length]
  refine ⟨hread value, hdrop value, ?_, List.replicate (2 ^ 32) 0, List.length_replicate _ _, ?_,
    ?_, hdrop _⟩
  · rw [hread]
    constructor
    · intro h
      have := Nat.mod_lt value.length (show 0 < 2 ^ 32 by norm_num)
      omega
    · intro h
      exact Nat.mod_eq_of_lt h
  · rw [hread, List.length_replicate]
    exact Nat.mod_self _
  · rw [hread, List.length_replicate, Nat.mod_self]
    norm_num

end Tltv
